import Mathlib

/-!
# bitplanes: the point-wise warp-and-residual evaluators

A shallow embedding of `imwarp3` (planar 2-D homography variant) and `imwarp`
(3-D projective variant, SSE) from `core/internal/imwarp.cc`.

Modelling conventions.

* `float` arithmetic is read as exact arithmetic over `ℚ`; the float-to-int
  conversion `static_cast<int>` is truncation toward zero on an unbounded `ℤ`.
* A `const float*` input buffer is a total map `ℕ → ℚ` from offsets to values.
  An output buffer (`residuals`, `valid`, `I_warped`) is such a map too, its
  contents before the call being an argument of the model; a store replaces one
  offset.  The optional `I_warped` pointer is an `Option` (`none` for a null
  pointer).  The `uint8_t` flags of `valid` only ever receive `0` or `1` and are
  kept as `Bool`.
* The image `const uint8_t*` is a finite list of bytes; a pixel read is
  `Option`-valued and fails outside the list, so every evaluator returns an
  `Option`.
* `int N` is a natural number (a negative `N` runs no iteration, as `0` does).
* The rounding mode and the flush-to-zero mode of the thread's MXCSR are explicit state:
  `imwarp` receives MXCSR at entry and returns it at exit, and its loops run on a state
  that pairs the output buffers with MXCSR.  What flush-to-zero does to a denormal result
  has no counterpart in exact arithmetic; only the mode itself is tracked.
-/

namespace bp

/-! ## Scalar primitives -/

/-- Conversion `static_cast<int>(x)` of a float: truncation toward zero. -/
def castInt (x : ℚ) : ℤ := Int.tdiv x.num x.den

/-- Read of one byte `*(I_ptr + off)`; `none` when `off` is outside the buffer. -/
def readPixel (I_ptr : List ℕ) (off : ℤ) : Option ℕ :=
  if 0 ≤ off then I_ptr[off.toNat]? else none

/-- In-place store `buf[i] = v`. -/
def store {α : Type} (buf : ℕ → α) (i : ℕ) (v : α) : ℕ → α :=
  fun j => if j = i then v else buf j

/-- Output buffers of a batch call together with the running counter `num_valid`. -/
structure Outputs where
  /-- Buffer `float* residuals`. -/
  residuals : ℕ → ℚ
  /-- Buffer `uint8_t* valid`. -/
  valid : ℕ → Bool
  /-- Buffer `float* I_warped`, `none` for a null pointer. -/
  I_warped : Option (ℕ → ℚ)
  /-- Local `int num_valid`, the value returned. -/
  num_valid : ℕ

/-! ## `imwarp3`: the 2-D homography variant (lines 604-648) -/

/-- Product `H * Eigen::Map<const Vector3f>(X + 3*i)` (line 615).  `H r c` is the
entry `H(r, c)` of the mapped matrix; the storage order behind it belongs to the
`Matrix33f` typedef, declared outside this file. -/
def homography3 (H : ℕ → ℕ → ℚ) (X : ℕ → ℚ) (i : ℕ) : ℚ × ℚ × ℚ :=
  (H 0 0 * X (3 * i) + H 0 1 * X (3 * i + 1) + H 0 2 * X (3 * i + 2),
   H 1 0 * X (3 * i) + H 1 1 * X (3 * i + 1) + H 1 2 * X (3 * i + 2),
   H 2 0 * X (3 * i) + H 2 1 * X (3 * i + 1) + H 2 2 * X (3 * i + 2))

/-- Projected coordinate `(xf, yf)` of point `i` as lines 615-619 compute it:
`Xw *= (1.0f / Xw[2]); xf = Xw[0]; yf = Xw[1]`. -/
def project3 (H : ℕ → ℕ → ℚ) (X : ℕ → ℚ) (i : ℕ) : ℚ × ℚ :=
  let Xw := homography3 H X i
  let s := 1 / Xw.2.2
  (Xw.1 * s, Xw.2.1 * s)

/-- Body of the `for` loop of `imwarp3` for index `i` (lines 615-644). -/
def imwarp3Point (I_ptr : List ℕ) (w h : ℤ) (H : ℕ → ℕ → ℚ) (X I_ref : ℕ → ℚ)
    (i : ℕ) (s : Outputs) : Option Outputs :=
  let stride := w
  let max_cols := w - 1
  let max_rows := h - 1
  let I := fun (r c : ℤ) => readPixel I_ptr (r * stride + c)
  let xf := (project3 H X i).1
  let yf := (project3 H X i).2
  let xi := castInt (xf + 1 / 2)
  let yi := castInt (yf + 1 / 2)
  let xf := xf - xi
  let yf := yf - yi
  if xi ≥ 0 ∧ xi < max_cols ∧ yi ≥ 0 ∧ yi < max_rows then
    (I yi xi).bind fun p00 =>
    (I yi (xi + 1)).bind fun p01 =>
    (I (yi + 1) xi).bind fun p10 =>
    (I (yi + 1) (xi + 1)).bind fun p11 =>
      let wx := 1 - xf
      let Iw : ℚ := (1 - yf) * (p00 * wx + p01 * xf) + yf * (p10 * wx + p11 * xf)
      some { valid := store s.valid i true
             residuals := store s.residuals i (I_ref i - Iw)
             I_warped := s.I_warped.map fun b => store b i Iw
             num_valid := s.num_valid + 1 }
  else
    some { valid := store s.valid i false
           residuals := store s.residuals i 0
           I_warped := s.I_warped.map fun b => store b i 0
           num_valid := s.num_valid }

/-- Loop `for (int i = 0; i < N; ++i)` of `imwarp3`, run for the first `n` indices. -/
def imwarp3Loop (I_ptr : List ℕ) (w h : ℤ) (H : ℕ → ℕ → ℚ) (X I_ref : ℕ → ℚ) :
    ℕ → Outputs → Option Outputs
  | 0, s => some s
  | n + 1, s => (imwarp3Loop I_ptr w h H X I_ref n s).bind (imwarp3Point I_ptr w h H X I_ref n)

/-- Function `imwarp3` (lines 604-648); the returned count is the field `num_valid`. -/
def imwarp3 (I_ptr : List ℕ) (w h : ℤ) (H : ℕ → ℕ → ℚ) (X I_ref : ℕ → ℚ)
    (residuals : ℕ → ℚ) (valid : ℕ → Bool) (N : ℕ) (I_warped : Option (ℕ → ℚ)) :
    Option Outputs :=
  imwarp3Loop I_ptr w h H X I_ref N
    { residuals := residuals, valid := valid, I_warped := I_warped, num_valid := 0 }

/-! ## SSE registers and intrinsics used by `imwarp` -/

/-- Register of four 32-bit lanes, `e0` the lowest. -/
structure Vec4 (α : Type) where
  /-- Lane 0 (bits 0-31). -/
  e0 : α
  /-- Lane 1 (bits 32-63). -/
  e1 : α
  /-- Lane 2 (bits 64-95). -/
  e2 : α
  /-- Lane 3 (bits 96-127). -/
  e3 : α

/-- Type `__m128`: four floats. -/
abbrev M128 := Vec4 ℚ

/-- Type `__m128i`: four 32-bit integers. -/
abbrev M128i := Vec4 ℤ

/-- Lane selected by a two-bit index. -/
def Vec4.lane {α : Type} (v : Vec4 α) (k : ℕ) : α :=
  match k with
  | 0 => v.e0
  | 1 => v.e1
  | 2 => v.e2
  | _ => v.e3

/-- Lane-wise application of a binary operation. -/
def Vec4.zipWith {α β γ : Type} (f : α → β → γ) (a : Vec4 α) (b : Vec4 β) : Vec4 γ :=
  ⟨f a.e0 b.e0, f a.e1 b.e1, f a.e2 b.e2, f a.e3 b.e3⟩

/-- Lane-wise application of a unary operation. -/
def Vec4.map {α β : Type} (f : α → β) (a : Vec4 α) : Vec4 β :=
  ⟨f a.e0, f a.e1, f a.e2, f a.e3⟩

/-- Rounding-control field of MXCSR (`_MM_ROUND_NEAREST`, `_MM_ROUND_DOWN`,
`_MM_ROUND_UP`, `_MM_ROUND_TOWARD_ZERO`). -/
inductive RoundingMode where
  | NEAREST
  | DOWN
  | UP
  | TOWARD_ZERO
  deriving DecidableEq, Repr

/-- Flush-to-zero field of MXCSR (`_MM_FLUSH_ZERO_ON`, `_MM_FLUSH_ZERO_OFF`). -/
inductive FlushZeroMode where
  | ON
  | OFF
  deriving DecidableEq, Repr

/-- The two fields of the thread's MXCSR register that `imwarp` touches. -/
structure Mxcsr where
  /-- Value read by `_MM_GET_ROUNDING_MODE()`. -/
  rounding_mode : RoundingMode
  /-- Value read by `_MM_GET_FLUSH_ZERO_MODE()`. -/
  flush_mode : FlushZeroMode
  deriving DecidableEq, Repr

/-- Float-to-int conversion under the rounding mode of MXCSR. -/
def cvtRound : RoundingMode → ℚ → ℤ
  | .NEAREST, x =>
      let f := ⌊x⌋
      let r := x - f
      if r < 1 / 2 then f else if 1 / 2 < r then f + 1 else if f % 2 = 0 then f else f + 1
  | .DOWN, x => ⌊x⌋
  | .UP, x => ⌈x⌉
  | .TOWARD_ZERO, x => castInt x

/-- Macro `_MM_SHUFFLE(z, y, x, w)`: the 8-bit selector `(z<<6) | (y<<4) | (x<<2) | w`. -/
def _MM_SHUFFLE (z y x w : ℕ) : ℕ := z * 64 + y * 16 + x * 4 + w

/-- Intrinsic `_mm_shuffle_ps(a, b, imm)`: lanes 0, 1 from `a`, lanes 2, 3 from `b`. -/
def _mm_shuffle_ps (a b : M128) (imm : ℕ) : M128 :=
  ⟨a.lane (imm % 4), a.lane (imm / 4 % 4), b.lane (imm / 16 % 4), b.lane (imm / 64 % 4)⟩

/-- Intrinsic `_mm_load_ps(p + off)`. -/
def _mm_load_ps (p : ℕ → ℚ) (off : ℕ) : M128 := ⟨p off, p (off + 1), p (off + 2), p (off + 3)⟩

/-- Intrinsic `_mm_store_ps(p + off, v)`. -/
def _mm_store_ps (p : ℕ → ℚ) (off : ℕ) (v : M128) : ℕ → ℚ :=
  store (store (store (store p off v.e0) (off + 1) v.e1) (off + 2) v.e2) (off + 3) v.e3

/-- Intrinsic `_mm_set1_ps(x)`. -/
def _mm_set1_ps (x : ℚ) : M128 := ⟨x, x, x, x⟩

/-- Intrinsic `_mm_set_ps(e3, e2, e1, e0)`. -/
def _mm_set_ps (e3 e2 e1 e0 : ℚ) : M128 := ⟨e0, e1, e2, e3⟩

/-- Intrinsic `_mm_set1_epi32(x)`. -/
def _mm_set1_epi32 (x : ℤ) : M128i := ⟨x, x, x, x⟩

/-- Intrinsic `_mm_set_epi32(e3, e2, e1, e0)`. -/
def _mm_set_epi32 (e3 e2 e1 e0 : ℤ) : M128i := ⟨e0, e1, e2, e3⟩

/-- Intrinsic `_mm_add_ps`. -/
def _mm_add_ps (a b : M128) : M128 := Vec4.zipWith (· + ·) a b

/-- Intrinsic `_mm_sub_ps`. -/
def _mm_sub_ps (a b : M128) : M128 := Vec4.zipWith (· - ·) a b

/-- Intrinsic `_mm_mul_ps`. -/
def _mm_mul_ps (a b : M128) : M128 := Vec4.zipWith (· * ·) a b

/-- Intrinsic `_mm_div_ps`. -/
def _mm_div_ps (a b : M128) : M128 := Vec4.zipWith (· / ·) a b

/-- Intrinsic `_mm_hadd_ps(a, b)`: sums of adjacent pairs. -/
def _mm_hadd_ps (a b : M128) : M128 := ⟨a.e0 + a.e1, a.e2 + a.e3, b.e0 + b.e1, b.e2 + b.e3⟩

/-- Intrinsic `_mm_cvtps_epi32`: conversion under the current MXCSR rounding mode. -/
def _mm_cvtps_epi32 (csr : Mxcsr) (a : M128) : M128i := Vec4.map (cvtRound csr.rounding_mode) a

/-- Intrinsic `_mm_cvtepi32_ps`. -/
def _mm_cvtepi32_ps (a : M128i) : M128 := Vec4.map (fun k : ℤ => (k : ℚ)) a

/-- Intrinsic `_mm_cmpgt_epi32`: all-ones (`-1`) where `a > b`, else `0`. -/
def _mm_cmpgt_epi32 (a b : M128i) : M128i := Vec4.zipWith (fun x y : ℤ => if x > y then -1 else 0) a b

/-- Intrinsic `_mm_cmplt_epi32`: all-ones (`-1`) where `a < b`, else `0`. -/
def _mm_cmplt_epi32 (a b : M128i) : M128i := Vec4.zipWith (fun x y : ℤ => if x < y then -1 else 0) a b

/-- Intrinsic `_mm_and_si128`: bitwise and. -/
def _mm_and_si128 (a b : M128i) : M128i := Vec4.zipWith Int.land a b

/-- Helper `sumv` (lines 391-395): the sum of the four lanes, in every lane. -/
def sumv (x : M128) : M128 :=
  let v := _mm_hadd_ps x x
  _mm_hadd_ps v v

/-! ## `imwarp`: the 3-D projective variant (lines 399-602) -/

/-- Projection of one homogeneous point loaded from `X + off` (lines 434-438, repeated at
442-446, 495-499 and 503-507): `c3 + ((c0*p[0] + c1*p[1]) + c2*p[2])`. -/
def projectPoint (c0 c1 c2 c3 : M128) (X : ℕ → ℚ) (off : ℕ) : M128 :=
  let p := _mm_load_ps X off
  let x := _mm_mul_ps c0 (_mm_shuffle_ps p p (_MM_SHUFFLE 0 0 0 0))
  let y := _mm_mul_ps c1 (_mm_shuffle_ps p p (_MM_SHUFFLE 1 1 1 1))
  let z := _mm_mul_ps c2 (_mm_shuffle_ps p p (_MM_SHUFFLE 2 2 2 2))
  _mm_add_ps c3 (_mm_add_ps (_mm_add_ps x y) z)

/-- Scalar gather of the 2 by 2 neighbourhood at column `u0`, row `v0` (lines 467-472,
repeated at 480-485, 528-533 and 541-546), packed as `_mm_set_ps(I3, I2, I1, I0)`. -/
def gather (I : List ℕ) (stride : ℤ) (u0 v0 : ℤ) : Option M128 :=
  let ii := v0 * stride + u0
  (readPixel I ii).bind fun I0 =>
  (readPixel I (ii + 1)).bind fun I1 =>
  (readPixel I (ii + stride)).bind fun I2 =>
  (readPixel I (ii + stride + 1)).bind fun I3 =>
    some (_mm_set_ps I3 I2 I1 I0)

/-- One of the two textually identical blocks of the vectorized loop body (lines 429-488
with `off = 0`, `j = 0`; lines 490-549 with `off = 8`, `j = 2`): projects the points at
`X + 4*i + off` and `X + 4*i + off + 4`, stores `valid[i + j]` and `valid[i + j + 1]`, and
returns the two interpolated intensities (`i0`, `i1`, respectively `i2`, `i3`). -/
def imwarpPair (csr : Mxcsr) (I : List ℕ) (w h : ℤ) (c0 c1 c2 c3 : M128) (X : ℕ → ℚ)
    (i off j : ℕ) (valid : ℕ → Bool) : Option ((ℕ → Bool) × M128 × M128) :=
  let stride := w
  let LB := _mm_set1_epi32 (-1)
  let UB := _mm_set_epi32 (h - 1) (w - 1) (h - 1) (w - 1)
  let ONES := _mm_set1_ps 1
  let HALF := _mm_set1_ps (1 / 2)
  let x0 := projectPoint c0 c1 c2 c3 X (4 * i + off)
  let x1 := projectPoint c0 c1 c2 c3 X (4 * i + off + 4)
  let zzzz := _mm_shuffle_ps x0 x1 (_MM_SHUFFLE 2 2 2 2)
  let xf := _mm_div_ps (_mm_shuffle_ps x0 x1 (_MM_SHUFFLE 1 0 1 0)) zzzz
  let xi := _mm_cvtps_epi32 csr (_mm_add_ps xf HALF)
  let mask := _mm_and_si128 (_mm_cmpgt_epi32 xi LB) (_mm_cmplt_epi32 xi UB)
  let xi := _mm_and_si128 mask xi
  let buf := xi
  let valid := store valid (i + j) (buf.e0 ≠ 0 && buf.e1 ≠ 0)
  let valid := store valid (i + j + 1) (buf.e2 ≠ 0 && buf.e3 ≠ 0)
  let xf := _mm_sub_ps xf (_mm_cvtepi32_ps xi)
  let wx := _mm_sub_ps ONES xf
  let xx := _mm_shuffle_ps wx xf (_MM_SHUFFLE 0 0 0 0)
  let yy := _mm_shuffle_ps wx xf (_MM_SHUFFLE 1 1 1 1)
  let yy := _mm_shuffle_ps yy yy (_MM_SHUFFLE 2 0 2 0)
  (gather I stride buf.e0 buf.e1).bind fun px =>
    let ia := sumv (_mm_mul_ps (_mm_mul_ps xx yy) px)
    let xx := _mm_shuffle_ps wx xf (_MM_SHUFFLE 2 2 2 2)
    let yy := _mm_shuffle_ps wx xf (_MM_SHUFFLE 3 3 3 3)
    let yy := _mm_shuffle_ps yy yy (_MM_SHUFFLE 2 0 2 0)
    (gather I stride buf.e2 buf.e3).bind fun px =>
      let ib := sumv (_mm_mul_ps (_mm_mul_ps xx yy) px)
      some (valid, ia, ib)

/-- Body of the vectorized loop for the group of four points starting at index `i`
(lines 427-560). -/
def imwarpGroup (csr : Mxcsr) (I : List ℕ) (w h : ℤ) (P X I_ref : ℕ → ℚ) (i : ℕ)
    (s : Outputs) : Option Outputs :=
  let c0 := _mm_load_ps P 0
  let c1 := _mm_load_ps P 4
  let c2 := _mm_load_ps P 8
  let c3 := _mm_load_ps P 12
  (imwarpPair csr I w h c0 c1 c2 c3 X i 0 0 s.valid).bind fun (valid, i0, i1) =>
  (imwarpPair csr I w h c0 c1 c2 c3 X i 8 2 valid).bind fun (valid, i2, i3) =>
    let z1 := _mm_shuffle_ps i0 i1 (_MM_SHUFFLE 0 0 0 0)
    let z2 := _mm_shuffle_ps i2 i3 (_MM_SHUFFLE 0 0 0 0)
    let zz := _mm_shuffle_ps z1 z2 (_MM_SHUFFLE 2 0 2 0)
    some { residuals := _mm_store_ps s.residuals i (_mm_sub_ps (_mm_load_ps I_ref i) zz)
           I_warped := s.I_warped.map fun b => _mm_store_ps b i zz
           valid := valid
           num_valid := s.num_valid + ((valid (i + 0)).toNat + (valid (i + 1)).toNat
             + (valid (i + 2)).toNat + (valid (i + 3)).toNat) }

/-- Vectorized loop `for (i = 0; i < n; i += 4)`, run for the first `g` groups. -/
def imwarpGroups (csr : Mxcsr) (I : List ℕ) (w h : ℤ) (P X I_ref : ℕ → ℚ) :
    ℕ → Outputs → Option Outputs
  | 0, s => some s
  | g + 1, s => (imwarpGroups csr I w h P X I_ref g s).bind
      (imwarpGroup csr I w h P X I_ref (4 * g))

/-- Product `PP * Point4Map(X + 4*i)` (lines 564, 568): `PP` is the top 3 by 4 block of
the column-major `Eigen::Matrix4f` mapped on `P`, so `PP(r, c) = P[4 c + r]`. -/
def projective3 (P X : ℕ → ℚ) (i : ℕ) : ℚ × ℚ × ℚ :=
  (P 0 * X (4 * i) + P 4 * X (4 * i + 1) + P 8 * X (4 * i + 2) + P 12 * X (4 * i + 3),
   P 1 * X (4 * i) + P 5 * X (4 * i + 1) + P 9 * X (4 * i + 2) + P 13 * X (4 * i + 3),
   P 2 * X (4 * i) + P 6 * X (4 * i + 1) + P 10 * X (4 * i + 2) + P 14 * X (4 * i + 3))

/-- Body of the scalar remainder loop for index `i` (lines 568-595). -/
def imwarpScalarPoint (I : List ℕ) (w h : ℤ) (P X I_ref : ℕ → ℚ) (i : ℕ) (s : Outputs) :
    Option Outputs :=
  let stride := w
  let Xw := projective3 P X i
  let z_i := 1 / Xw.2.2
  let xf := Xw.1 * z_i
  let yf := Xw.2.1 * z_i
  let xi := castInt (xf + 1 / 2)
  let yi := castInt (yf + 1 / 2)
  let v : Bool := xi ≥ 0 && xi < w - 1 && yi ≥ 0 && yi < h - 1
  let valid := store s.valid i v
  if valid i then
    let xf := xf - xi
    let yf := yf - yi
    let p0 := yi * stride + xi
    (readPixel I p0).bind fun i0 =>
    (readPixel I (p0 + 1)).bind fun i1 =>
    (readPixel I (p0 + stride)).bind fun i2 =>
    (readPixel I (p0 + stride + 1)).bind fun i3 =>
      let Iw : ℚ := (1 - yf) * ((1 - xf) * i0 + xf * i1) + yf * ((1 - xf) * i2 + xf * i3)
      some { valid := valid
             residuals := store s.residuals i (I_ref i - Iw)
             I_warped := s.I_warped.map fun b => store b i Iw
             num_valid := s.num_valid + 1 }
  else
    some { s with valid := valid }

/-- Scalar remainder loop `for ( ; i < N; ++i)` entered at `i = start`, run for `m` indices. -/
def imwarpRemainder (I : List ℕ) (w h : ℤ) (P X I_ref : ℕ → ℚ) (start : ℕ) :
    ℕ → Outputs → Option Outputs
  | 0, s => some s
  | m + 1, s => (imwarpRemainder I w h P X I_ref start m s).bind
      (imwarpScalarPoint I w h P X I_ref (start + m))

/-- Intrinsic `_MM_GET_ROUNDING_MODE()`: the rounding-control field of MXCSR. -/
def _MM_GET_ROUNDING_MODE (csr : Mxcsr) : RoundingMode := csr.rounding_mode

/-- Intrinsic `_MM_SET_ROUNDING_MODE(mode)`: writes the rounding-control field of MXCSR. -/
def _MM_SET_ROUNDING_MODE (csr : Mxcsr) (mode : RoundingMode) : Mxcsr :=
  { csr with rounding_mode := mode }

/-- Intrinsic `_MM_GET_FLUSH_ZERO_MODE()`: the flush-to-zero field of MXCSR. -/
def _MM_GET_FLUSH_ZERO_MODE (csr : Mxcsr) : FlushZeroMode := csr.flush_mode

/-- Intrinsic `_MM_SET_FLUSH_ZERO_MODE(mode)`: writes the flush-to-zero field of MXCSR. -/
def _MM_SET_FLUSH_ZERO_MODE (csr : Mxcsr) (mode : FlushZeroMode) : Mxcsr :=
  { csr with flush_mode := mode }

/-- Lines 406-410 of `imwarp`: saves the two modes in the locals `rounding_mode` and
`flush_mode` (first component) and switches MXCSR to round-toward-zero and flush-to-zero on
where it is not already there (second component: MXCSR after line 410). -/
def imwarpEnter (csr : Mxcsr) : (RoundingMode × FlushZeroMode) × Mxcsr :=
  let rounding_mode := _MM_GET_ROUNDING_MODE csr
  let csr := if RoundingMode.TOWARD_ZERO ≠ rounding_mode
    then _MM_SET_ROUNDING_MODE csr RoundingMode.TOWARD_ZERO else csr
  let flush_mode := _MM_GET_FLUSH_ZERO_MODE csr
  let csr := if FlushZeroMode.ON ≠ flush_mode
    then _MM_SET_FLUSH_ZERO_MODE csr FlushZeroMode.ON else csr
  ((rounding_mode, flush_mode), csr)

/-- Lines 598-599 of `imwarp`: writes the saved modes back where they differ from
round-toward-zero, respectively flush-to-zero on. -/
def imwarpLeave (saved : RoundingMode × FlushZeroMode) (csr : Mxcsr) : Mxcsr :=
  let rounding_mode := saved.1
  let flush_mode := saved.2
  let csr := if RoundingMode.TOWARD_ZERO ≠ rounding_mode
    then _MM_SET_ROUNDING_MODE csr rounding_mode else csr
  let csr := if FlushZeroMode.ON ≠ flush_mode
    then _MM_SET_FLUSH_ZERO_MODE csr flush_mode else csr
  csr

/-- The vectorized loop on the state of the thread (output buffers and counter, MXCSR),
after `g` trips: the conversions of the body read the MXCSR of the state, and no statement
of lines 425-561 writes MXCSR, which is handed on as it is. -/
def imwarpGroupsM (I : List ℕ) (w h : ℤ) (P X I_ref : ℕ → ℚ) (g : ℕ) (m : Outputs × Mxcsr) :
    Option (Outputs × Mxcsr) :=
  (imwarpGroups m.2 I w h P X I_ref g m.1).map fun out => (out, m.2)

/-- The scalar remainder loop on the state of the thread, entered at `i = start`, after `k`
trips: no statement of lines 566-596 writes MXCSR, which is handed on as it is. -/
def imwarpRemainderM (I : List ℕ) (w h : ℤ) (P X I_ref : ℕ → ℚ) (start k : ℕ)
    (m : Outputs × Mxcsr) : Option (Outputs × Mxcsr) :=
  (imwarpRemainder I w h P X I_ref start k m.1).map fun out => (out, m.2)

/-- Function `imwarp` (lines 399-602).  `csr` is the thread's MXCSR at entry; the result
holds the output buffers, the returned count (`num_valid`) and MXCSR at exit. -/
def imwarp (csr : Mxcsr) (I : List ℕ) (w h : ℤ) (P X I_ref : ℕ → ℚ) (residuals : ℕ → ℚ)
    (valid : ℕ → Bool) (N : ℕ) (I_warped : Option (ℕ → ℚ)) : Option (Outputs × Mxcsr) :=
  -- lines 406-410: the saved modes, and MXCSR as the loops find it
  let saved := (imwarpEnter csr).1
  let csr := (imwarpEnter csr).2
  -- `N & ~3`, the largest multiple of four not above `N`
  let n := N - N % 4
  let s : Outputs :=
    { residuals := residuals, valid := valid, I_warped := I_warped, num_valid := 0 }
  (imwarpGroupsM I w h P X I_ref (n / 4) (s, csr)).bind fun m =>
  (imwarpRemainderM I w h P X I_ref n (N - n) m).bind fun m =>
    -- lines 598-601
    some (m.1, imwarpLeave saved m.2)

/-! ## Named parts of the vectorized block -/

/-- Register `xf` of lines 449-450 (and 510-511) for the points at `X + 4*i + off` and
`X + 4*i + off + 4`: lanes `[x/z, y/z]` of the first point, then of the second. -/
def pairXf (c0 c1 c2 c3 : M128) (X : ℕ → ℚ) (i off : ℕ) : M128 :=
  let x0 := projectPoint c0 c1 c2 c3 X (4 * i + off)
  let x1 := projectPoint c0 c1 c2 c3 X (4 * i + off + 4)
  let zzzz := _mm_shuffle_ps x0 x1 (_MM_SHUFFLE 2 2 2 2)
  _mm_div_ps (_mm_shuffle_ps x0 x1 (_MM_SHUFFLE 1 0 1 0)) zzzz

/-- Masking of lines 452-453 (and 513-514) applied to a register `xi` of rounded lanes,
with the bounds `LB`, `UB` of lines 417-418. -/
def maskedBuf (w h : ℤ) (xi : M128i) : M128i :=
  let LB := _mm_set1_epi32 (-1)
  let UB := _mm_set_epi32 (h - 1) (w - 1) (h - 1) (w - 1)
  let mask := _mm_and_si128 (_mm_cmpgt_epi32 xi LB) (_mm_cmplt_epi32 xi UB)
  _mm_and_si128 mask xi

/-- Contents of `buf` after line 455 (and 516): the masked rounded coordinates
`[u, v]` of the first point of the block, then of the second. -/
def pairBuf (csr : Mxcsr) (w h : ℤ) (c0 c1 c2 c3 : M128) (X : ℕ → ℚ) (i off : ℕ) : M128i :=
  let HALF := _mm_set1_ps (1 / 2)
  maskedBuf w h (_mm_cvtps_epi32 csr (_mm_add_ps (pairXf c0 c1 c2 c3 X i off) HALF))

/-! ## Concrete data of the scenarios -/

/-- Buffer holding the listed floats, zero elsewhere. -/
def bufOf (l : List ℚ) : ℕ → ℚ := fun j => l.getD j 0

/-- Image of 4 by 4 pixels with `I(r, c) = 40 r + 10 c`. -/
def img4 : List ℕ := [0, 10, 20, 30, 40, 50, 60, 70, 80, 90, 100, 110, 120, 130, 140, 150]

/-- Identity 3 by 3 homography. -/
def H_id : ℕ → ℕ → ℚ := fun r c => if r = c then 1 else 0

/-- Projection matrix buffer `P` holding the 4 by 4 identity. -/
def P_id : ℕ → ℚ := bufOf [1, 0, 0, 0, 0, 1, 0, 0, 0, 0, 1, 0, 0, 0, 0, 1]

/-- MXCSR default after thread start: round to nearest, flush-to-zero off. -/
def csr0 : Mxcsr := ⟨RoundingMode.NEAREST, FlushZeroMode.OFF⟩

/-! ## Specification-side definitions -/

/-- Projected coordinate of point `i` after the perspective divide, in the words of the
specification: the first two coordinates of `H * X_i` divided by the third. -/
def perspective3 (H : ℕ → ℕ → ℚ) (X : ℕ → ℚ) (i : ℕ) : ℚ × ℚ :=
  ((homography3 H X i).1 / (homography3 H X i).2.2,
   (homography3 H X i).2.1 / (homography3 H X i).2.2)

/-- Pixel value `I(r, c)` of the specification: the byte at row `r`, column `c` of an image
of row stride `w` (`0` outside the buffer). -/
def pixel (I_ptr : List ℕ) (w : ℤ) (r c : ℤ) : ℚ :=
  (((readPixel I_ptr (r * w + c)).getD 0 : ℕ) : ℚ)

/-- Nearest-anchored bilinear value of the specification,
`(1-dy)·((1-dx)·I(yi,xi) + dx·I(yi,xi+1)) + dy·((1-dx)·I(yi+1,xi) + dx·I(yi+1,xi+1))`. -/
def bilinear (I : ℤ → ℤ → ℚ) (xi yi : ℤ) (dx dy : ℚ) : ℚ :=
  (1 - dy) * ((1 - dx) * I yi xi + dx * I yi (xi + 1))
    + dy * ((1 - dx) * I (yi + 1) xi + dx * I (yi + 1) (xi + 1))

/-- Rounded column `xi = trunc(xf + 0.5)` of point `i` in `imwarp3`. -/
def xi3 (H : ℕ → ℕ → ℚ) (X : ℕ → ℚ) (i : ℕ) : ℤ := castInt ((perspective3 H X i).1 + 1 / 2)

/-- Rounded row `yi = trunc(yf + 0.5)` of point `i` in `imwarp3`. -/
def yi3 (H : ℕ → ℕ → ℚ) (X : ℕ → ℚ) (i : ℕ) : ℤ := castInt ((perspective3 H X i).2 + 1 / 2)

/-- Validity rule of the specification for `imwarp3`: `xi ∈ [0, w-2]` and `yi ∈ [0, h-2]`. -/
def inBounds3 (w h : ℤ) (H : ℕ → ℕ → ℚ) (X : ℕ → ℚ) (i : ℕ) : Bool :=
  decide (0 ≤ xi3 H X i ∧ xi3 H X i ≤ w - 2 ∧ 0 ≤ yi3 H X i ∧ yi3 H X i ≤ h - 2)

/-- Sample `S` of the specification for point `i` of `imwarp3`, with `dx = xf - xi` and
`dy = yf - yi`. -/
def sample3 (I_ptr : List ℕ) (w : ℤ) (H : ℕ → ℕ → ℚ) (X : ℕ → ℚ) (i : ℕ) : ℚ :=
  bilinear (pixel I_ptr w) (xi3 H X i) (yi3 H X i)
    ((perspective3 H X i).1 - xi3 H X i) ((perspective3 H X i).2 - yi3 H X i)

/-- Projected coordinate of point `i` of the 3-D variant after the perspective divide, in
the words of the specification: the first two coordinates of `PP * X_i` divided by the
third. -/
def perspective4 (P X : ℕ → ℚ) (i : ℕ) : ℚ × ℚ :=
  ((projective3 P X i).1 / (projective3 P X i).2.2,
   (projective3 P X i).2.1 / (projective3 P X i).2.2)

/-- Rounded column `xi = trunc(xf + 0.5)` of point `i` in `imwarp`. -/
def xi4 (P X : ℕ → ℚ) (i : ℕ) : ℤ := castInt ((perspective4 P X i).1 + 1 / 2)

/-- Rounded row `yi = trunc(yf + 0.5)` of point `i` in `imwarp`. -/
def yi4 (P X : ℕ → ℚ) (i : ℕ) : ℤ := castInt ((perspective4 P X i).2 + 1 / 2)

/-- Sample of the specification for point `i` of `imwarp`: the nearest-anchored bilinear
value at `(xi, yi)` with `dx = xf - xi` and `dy = yf - yi`. -/
def sample4 (I : List ℕ) (w : ℤ) (P X : ℕ → ℚ) (i : ℕ) : ℚ :=
  bilinear (pixel I w) (xi4 P X i) (yi4 P X i)
    ((perspective4 P X i).1 - xi4 P X i) ((perspective4 P X i).2 - yi4 P X i)

/-- The four pixel indices of the 2 by 2 neighbourhood anchored at column `u`, row `v` of
an image of row stride `w`, as the specification lists them. -/
def neighbourhood (w u v : ℤ) : List ℤ :=
  [v * w + u, v * w + u + 1, (v + 1) * w + u, (v + 1) * w + u + 1]

/-! ## Truncation toward zero -/

theorem castInt_of_nonneg {x : ℚ} (hx : 0 ≤ x) : castInt x = ⌊x⌋ := by
  unfold castInt
  rw [Rat.floor_def]
  exact Int.tdiv_eq_ediv (Rat.num_nonneg.mpr hx) (Int.ofNat_nonneg _)

theorem castInt_neg (x : ℚ) : castInt (-x) = -castInt x := by
  unfold castInt
  rw [Rat.neg_num, Rat.neg_den, Int.neg_tdiv]

theorem castInt_of_nonpos {x : ℚ} (hx : x ≤ 0) : castInt x = -⌊-x⌋ := by
  have h := castInt_neg (-x)
  rw [neg_neg] at h
  rw [h, castInt_of_nonneg (by linarith)]

theorem castInt_intCast (k : ℤ) : castInt (k : ℚ) = k := by
  rcases le_total 0 k with hk | hk
  · rw [castInt_of_nonneg (by exact_mod_cast hk), Int.floor_intCast]
  · rw [castInt_of_nonpos (by exact_mod_cast hk), ← Int.cast_neg, Int.floor_intCast, neg_neg]

/-- The truncation is non-negative exactly above `-1`. -/
theorem castInt_nonneg_iff (x : ℚ) : 0 ≤ castInt x ↔ -1 < x := by
  rcases le_total 0 x with hx | hx
  · rw [castInt_of_nonneg hx]
    constructor
    · intro _; linarith
    · intro _; exact Int.floor_nonneg.mpr hx
  · rw [castInt_of_nonpos hx]
    constructor
    · intro h
      have h1 : ⌊-x⌋ ≤ 0 := by linarith
      have h2 := Int.lt_floor_add_one (-x)
      have h3 : ((⌊-x⌋ : ℤ) : ℚ) ≤ 0 := by exact_mod_cast h1
      linarith
    · intro h
      have h1 : ⌊-x⌋ < 1 := Int.floor_lt.mpr (by push_cast; linarith)
      linarith

/-- For a non-negative argument the truncation is at most `k` exactly below `k + 1`. -/
theorem castInt_le_iff {x : ℚ} (hx : 0 ≤ x) (k : ℤ) : castInt x ≤ k ↔ x < k + 1 := by
  rw [castInt_of_nonneg hx]
  constructor
  · intro h
    have h1 := Int.lt_floor_add_one x
    have h2 : ((⌊x⌋ : ℤ) : ℚ) ≤ k := by exact_mod_cast h
    linarith
  · intro h
    have h1 : ⌊x⌋ < k + 1 := Int.floor_lt.mpr (by push_cast; linarith)
    linarith

/-! ## Pixel reads -/

theorem project3_eq_perspective3 (H : ℕ → ℕ → ℚ) (X : ℕ → ℚ) (i : ℕ) :
    project3 H X i = perspective3 H X i := by
  simp only [project3, perspective3, mul_one_div]

/-- A read inside a `w` by `h` image succeeds. -/
theorem readPixel_isSome {I_ptr : List ℕ} {w h : ℤ} (hI : (I_ptr.length : ℤ) = w * h)
    {r c : ℤ} (hr0 : 0 ≤ r) (hr : r < h) (hc0 : 0 ≤ c) (hc : c < w) :
    ∃ p : ℕ, readPixel I_ptr (r * w + c) = some p := by
  have hw : 0 ≤ w := by linarith
  have h0 : 0 ≤ r * w + c := by positivity
  have h1 : r * w + c < w * h := by nlinarith
  have h2 : (r * w + c).toNat < I_ptr.length := by
    have : ((r * w + c).toNat : ℤ) = r * w + c := Int.toNat_of_nonneg h0
    omega
  exact ⟨I_ptr[(r * w + c).toNat], by simp [readPixel, h0, List.getElem?_eq_getElem h2]⟩

theorem pixel_of_read {I_ptr : List ℕ} {w r c : ℤ} {p : ℕ}
    (h : readPixel I_ptr (r * w + c) = some p) : pixel I_ptr w r c = p := by
  simp [pixel, h]

/-! ## `imwarp3`: one point, then the loop -/

/-- The test of line 627 is the validity rule of the specification. -/
theorem line627_iff (w h : ℤ) (H : ℕ → ℕ → ℚ) (X : ℕ → ℚ) (i : ℕ) :
    (castInt ((project3 H X i).1 + 1 / 2) ≥ 0 ∧ castInt ((project3 H X i).1 + 1 / 2) < w - 1 ∧
      castInt ((project3 H X i).2 + 1 / 2) ≥ 0 ∧ castInt ((project3 H X i).2 + 1 / 2) < h - 1)
    ↔ inBounds3 w h H X i = true := by
  rw [project3_eq_perspective3]
  simp only [inBounds3, xi3, yi3, decide_eq_true_eq, ge_iff_le]
  constructor <;> rintro ⟨h1, h2, h3, h4⟩ <;> refine ⟨h1, ?_, h3, ?_⟩ <;> omega

theorem imwarp3Point_invalid (I_ptr : List ℕ) (w h : ℤ) (H : ℕ → ℕ → ℚ) (X I_ref : ℕ → ℚ)
    (i : ℕ) (s : Outputs) (hv : inBounds3 w h H X i = false) :
    imwarp3Point I_ptr w h H X I_ref i s =
      some { valid := store s.valid i false
             residuals := store s.residuals i 0
             I_warped := s.I_warped.map fun b => store b i 0
             num_valid := s.num_valid } := by
  have hc := (line627_iff w h H X i).not.mpr (by simp [hv])
  unfold imwarp3Point
  simp only [if_neg hc]

theorem imwarp3Point_valid {I_ptr : List ℕ} {w h : ℤ} (hI : (I_ptr.length : ℤ) = w * h)
    (H : ℕ → ℕ → ℚ) (X I_ref : ℕ → ℚ) (i : ℕ) (s : Outputs)
    (hv : inBounds3 w h H X i = true) :
    imwarp3Point I_ptr w h H X I_ref i s =
      some { valid := store s.valid i true
             residuals := store s.residuals i (I_ref i - sample3 I_ptr w H X i)
             I_warped := s.I_warped.map fun b => store b i (sample3 I_ptr w H X i)
             num_valid := s.num_valid + 1 } := by
  have hc := (line627_iff w h H X i).mpr hv
  have hb : 0 ≤ xi3 H X i ∧ xi3 H X i ≤ w - 2 ∧ 0 ≤ yi3 H X i ∧ yi3 H X i ≤ h - 2 := by
    simpa [inBounds3] using hv
  obtain ⟨hx0, hx1, hy0, hy1⟩ := hb
  obtain ⟨p00, h00⟩ := readPixel_isSome hI hy0 (by omega) hx0 (by omega)
  obtain ⟨p01, h01⟩ := readPixel_isSome hI hy0 (by omega) (c := xi3 H X i + 1) (by omega) (by omega)
  obtain ⟨p10, h10⟩ := readPixel_isSome hI (r := yi3 H X i + 1) (by omega) (by omega) hx0 (by omega)
  obtain ⟨p11, h11⟩ := readPixel_isSome hI (r := yi3 H X i + 1) (by omega) (by omega)
    (c := xi3 H X i + 1) (by omega) (by omega)
  have hS : sample3 I_ptr w H X i =
      (1 - ((perspective3 H X i).2 - yi3 H X i)) *
        (p00 * (1 - ((perspective3 H X i).1 - xi3 H X i))
          + p01 * ((perspective3 H X i).1 - xi3 H X i))
      + ((perspective3 H X i).2 - yi3 H X i) *
        (p10 * (1 - ((perspective3 H X i).1 - xi3 H X i))
          + p11 * ((perspective3 H X i).1 - xi3 H X i)) := by
    simp only [sample3, bilinear, pixel_of_read h00, pixel_of_read h01, pixel_of_read h10,
      pixel_of_read h11]
    ring
  unfold imwarp3Point
  simp only [if_pos hc]
  rw [project3_eq_perspective3]
  simp only [xi3, yi3] at h00 h01 h10 h11 hS
  simp only [h00, h01, h10, h11, Option.bind, hS]

/-- Outputs of `imwarp3` after the first `n` indices, slot by slot. -/
theorem imwarp3Loop_spec {I_ptr : List ℕ} {w h : ℤ} (hI : (I_ptr.length : ℤ) = w * h)
    (H : ℕ → ℕ → ℚ) (X I_ref : ℕ → ℚ) (s : Outputs) (n : ℕ) :
    ∃ s', imwarp3Loop I_ptr w h H X I_ref n s = some s' ∧
      (∀ i, s'.valid i = if i < n then inBounds3 w h H X i else s.valid i) ∧
      (∀ i, s'.residuals i = if i < n then
          (if inBounds3 w h H X i then I_ref i - sample3 I_ptr w H X i else 0)
        else s.residuals i) ∧
      (s'.I_warped = s.I_warped.map fun b j => if j < n then
          (if inBounds3 w h H X j then sample3 I_ptr w H X j else 0)
        else b j) ∧
      s'.num_valid = s.num_valid + (List.range n).countP (inBounds3 w h H X) := by
  induction n with
  | zero =>
    refine ⟨s, rfl, ?_, ?_, ?_, ?_⟩
    · intro i; simp
    · intro i; simp
    · cases s.I_warped <;> simp
    · simp
  | succ n ih =>
    obtain ⟨s1, h1, hval, hres, hwarp, hnum⟩ := ih
    cases hv : inBounds3 w h H X n
    · refine ⟨_, by rw [imwarp3Loop, h1, Option.bind]; exact imwarp3Point_invalid I_ptr w h H X I_ref n s1 hv, ?_, ?_, ?_, ?_⟩
      · intro i
        simp only [store, hval]
        rcases lt_trichotomy i n with hlt | heq | hgt
        · simp [hlt, Nat.lt_succ_of_lt hlt, Nat.ne_of_lt hlt]
        · simp [heq, hv]
        · have : ¬ i < n + 1 := by omega
          have : ¬ i < n := by omega
          have : i ≠ n := by omega
          simp [*]
      · intro i
        simp only [store, hres]
        rcases lt_trichotomy i n with hlt | heq | hgt
        · simp [hlt, Nat.lt_succ_of_lt hlt, Nat.ne_of_lt hlt]
        · simp [heq, hv]
        · have : ¬ i < n + 1 := by omega
          have : ¬ i < n := by omega
          have : i ≠ n := by omega
          simp [*]
      · simp only [hwarp]
        cases s.I_warped with
        | none => rfl
        | some b =>
          simp only [Option.map_some']
          congr 1
          funext j
          simp only [store]
          rcases lt_trichotomy j n with hlt | heq | hgt
          · simp [hlt, Nat.lt_succ_of_lt hlt, Nat.ne_of_lt hlt]
          · simp [heq, hv]
          · have : ¬ j < n + 1 := by omega
            have : ¬ j < n := by omega
            have : j ≠ n := by omega
            simp [*]
      · simp [hnum, List.range_succ, List.countP_append, hv]
    · refine ⟨_, by rw [imwarp3Loop, h1, Option.bind]; exact imwarp3Point_valid hI H X I_ref n s1 hv, ?_, ?_, ?_, ?_⟩
      · intro i
        simp only [store, hval]
        rcases lt_trichotomy i n with hlt | heq | hgt
        · simp [hlt, Nat.lt_succ_of_lt hlt, Nat.ne_of_lt hlt]
        · simp [heq, hv]
        · have : ¬ i < n + 1 := by omega
          have : ¬ i < n := by omega
          have : i ≠ n := by omega
          simp [*]
      · intro i
        simp only [store, hres]
        rcases lt_trichotomy i n with hlt | heq | hgt
        · simp [hlt, Nat.lt_succ_of_lt hlt, Nat.ne_of_lt hlt]
        · simp [heq, hv]
        · have : ¬ i < n + 1 := by omega
          have : ¬ i < n := by omega
          have : i ≠ n := by omega
          simp [*]
      · simp only [hwarp]
        cases s.I_warped with
        | none => rfl
        | some b =>
          simp only [Option.map_some']
          congr 1
          funext j
          simp only [store]
          rcases lt_trichotomy j n with hlt | heq | hgt
          · simp [hlt, Nat.lt_succ_of_lt hlt, Nat.ne_of_lt hlt]
          · simp [heq, hv]
          · have : ¬ j < n + 1 := by omega
            have : ¬ j < n := by omega
            have : j ≠ n := by omega
            simp [*]
      · simp [hnum, List.range_succ, List.countP_append, hv, Nat.add_assoc]

/-! ## `imwarp3`: the contract of valid and invalid points -/

/-- C1: for an image of `w*h` pixels, any homography, batch and index `i < N` whose third
projected coordinate is non-zero, `imwarp3` returns, and if it marks `i` valid then
`residuals[i] = I_ref[i] - S` and, when the `I_warped` buffer is supplied, `I_warped[i] = S`,
with `S` the nearest-anchored bilinear value `sample3` (`dx = xf - xi`, `dy = yf - yi`). -/
theorem imwarp3_valid_residual (I_ptr : List ℕ) (w h : ℤ) (H : ℕ → ℕ → ℚ) (X I_ref : ℕ → ℚ)
    (residuals : ℕ → ℚ) (valid : ℕ → Bool) (N : ℕ) (I_warped : Option (ℕ → ℚ)) (i : ℕ)
    (hI : (I_ptr.length : ℤ) = w * h) (hi : i < N) (hz : (homography3 H X i).2.2 ≠ 0) :
    ∃ out, imwarp3 I_ptr w h H X I_ref residuals valid N I_warped = some out ∧
      (out.valid i = true →
        out.residuals i = I_ref i - sample3 I_ptr w H X i ∧
        out.I_warped.map (fun b => b i) = I_warped.map (fun _ => sample3 I_ptr w H X i)) := by
  obtain ⟨out, hout, hval, hres, hwarp, -⟩ :=
    imwarp3Loop_spec hI H X I_ref ⟨residuals, valid, I_warped, 0⟩ N
  refine ⟨out, hout, fun hv => ?_⟩
  have hb : inBounds3 w h H X i = true := by
    have := hval i
    simp only [hi, if_true] at this
    rw [← this]; exact hv
  constructor
  · rw [hres i]; simp [hi, hb]
  · rw [hwarp]
    cases I_warped <;> simp [hi, hb]

/-- C1, the concrete scenario: the 4 by 4 image, the identity homography, the single point
`(1.5, 1.5, 1)` and reference 95 give a valid point with `S = 75`, residual 20 and return
value 1. -/
theorem imwarp3_valid_residual_witness :
    ∃ out, imwarp3 img4 4 4 H_id (bufOf [3 / 2, 3 / 2, 1]) (bufOf [95]) (bufOf [])
        (fun _ => false) 1 (some (bufOf [])) = some out ∧
      out.valid 0 = true ∧ sample3 img4 4 H_id (bufOf [3 / 2, 3 / 2, 1]) 0 = 75 ∧
      out.residuals 0 = 20 ∧ out.I_warped.map (fun b => b 0) = some 75 ∧ out.num_valid = 1 := by
  obtain ⟨out, hout, h⟩ := imwarp3_valid_residual img4 4 4 H_id (bufOf [3 / 2, 3 / 2, 1])
    (bufOf [95]) (bufOf []) (fun _ => false) 1 (some (bufOf [])) 0 (by decide) (by decide)
    (by decide!)
  have hS : sample3 img4 4 H_id (bufOf [3 / 2, 3 / 2, 1]) 0 = 75 := by decide!
  have hev : (imwarp3 img4 4 4 H_id (bufOf [3 / 2, 3 / 2, 1]) (bufOf [95]) (bufOf [])
      (fun _ => false) 1 (some (bufOf []))).map (fun o => (o.valid 0, o.num_valid))
      = some (true, 1) := by decide!
  rw [hout] at hev
  simp only [Option.map_some', Option.some.injEq, Prod.mk.injEq] at hev
  obtain ⟨hr, hw⟩ := h hev.1
  refine ⟨out, hout, hev.1, hS, ?_, ?_, hev.2⟩
  · rw [hr, hS]; norm_num [bufOf]
  · rw [hw, hS]; rfl

/-- C2: for an image of `w*h` pixels and an index `i < N` whose third projected coordinate
is non-zero, `imwarp3` returns with `valid[i]` true if and only if `0 ≤ xi ≤ w-2` and
`0 ≤ yi ≤ h-2`, where `xi = trunc(xf + 0.5)`, `yi = trunc(yf + 0.5)` and `(xf, yf)` is the
coordinate after the perspective divide; otherwise `valid[i]` is false. -/
theorem imwarp3_valid_iff (I_ptr : List ℕ) (w h : ℤ) (H : ℕ → ℕ → ℚ) (X I_ref : ℕ → ℚ)
    (residuals : ℕ → ℚ) (valid : ℕ → Bool) (N : ℕ) (I_warped : Option (ℕ → ℚ)) (i : ℕ)
    (hI : (I_ptr.length : ℤ) = w * h) (hi : i < N) (hz : (homography3 H X i).2.2 ≠ 0) :
    ∃ out, imwarp3 I_ptr w h H X I_ref residuals valid N I_warped = some out ∧
      (out.valid i = true ↔
        (0 ≤ castInt ((homography3 H X i).1 / (homography3 H X i).2.2 + 1 / 2) ∧
         castInt ((homography3 H X i).1 / (homography3 H X i).2.2 + 1 / 2) ≤ w - 2 ∧
         0 ≤ castInt ((homography3 H X i).2.1 / (homography3 H X i).2.2 + 1 / 2) ∧
         castInt ((homography3 H X i).2.1 / (homography3 H X i).2.2 + 1 / 2) ≤ h - 2)) ∧
      (¬ (0 ≤ castInt ((homography3 H X i).1 / (homography3 H X i).2.2 + 1 / 2) ∧
         castInt ((homography3 H X i).1 / (homography3 H X i).2.2 + 1 / 2) ≤ w - 2 ∧
         0 ≤ castInt ((homography3 H X i).2.1 / (homography3 H X i).2.2 + 1 / 2) ∧
         castInt ((homography3 H X i).2.1 / (homography3 H X i).2.2 + 1 / 2) ≤ h - 2) →
        out.valid i = false) := by
  obtain ⟨out, hout, hval, -, -, -⟩ :=
    imwarp3Loop_spec hI H X I_ref ⟨residuals, valid, I_warped, 0⟩ N
  have hv : out.valid i = inBounds3 w h H X i := by
    have := hval i
    simpa only [hi, if_true] using this
  refine ⟨out, hout, ?_, ?_⟩
  · rw [hv]; simp only [inBounds3, xi3, yi3, perspective3, decide_eq_true_eq]
  · intro hn
    rw [hv]; simpa only [inBounds3, xi3, yi3, perspective3, decide_eq_false_iff_not] using hn

/-- C2 at the point `(1.5, 1.5, 1)` of the 4 by 4 scenario: `xi = yi = 2` lies in `[0, 2]`
and the point is marked valid. -/
theorem imwarp3_valid_iff_witness :
    ∃ out, imwarp3 img4 4 4 H_id (bufOf [3 / 2, 3 / 2, 1]) (bufOf [95]) (bufOf [])
        (fun _ => false) 1 none = some out ∧
      castInt ((homography3 H_id (bufOf [3 / 2, 3 / 2, 1]) 0).1
        / (homography3 H_id (bufOf [3 / 2, 3 / 2, 1]) 0).2.2 + 1 / 2) = 2 ∧
      castInt ((homography3 H_id (bufOf [3 / 2, 3 / 2, 1]) 0).2.1
        / (homography3 H_id (bufOf [3 / 2, 3 / 2, 1]) 0).2.2 + 1 / 2) = 2 ∧
      out.valid 0 = true := by
  obtain ⟨out, hout, h, -⟩ := imwarp3_valid_iff img4 4 4 H_id (bufOf [3 / 2, 3 / 2, 1])
    (bufOf [95]) (bufOf []) (fun _ => false) 1 none 0 (by decide) (by decide) (by decide!)
  exact ⟨out, hout, by decide!, by decide!, h.mpr (by decide!)⟩

/-- Counting a predicate that fails at `i` ignores `i`. -/
theorem countP_skip (p : ℕ → Bool) (i : ℕ) (hp : p i = false) (l : List ℕ) :
    l.countP p = (l.filter fun j => decide (j ≠ i)).countP p := by
  rw [List.countP_filter]
  apply List.countP_congr
  intro j _
  by_cases hj : j = i
  · subst hj; simp [hp]
  · simp [hj]

/-- C4: for an image of `w*h` pixels and an index `i < N` whose rounded coordinates fail the
validity test, `imwarp3` returns with `valid[i] = false`, `residuals[i] = 0` and, when the
`I_warped` buffer is supplied, `I_warped[i] = 0`, whatever the buffers held before; the
returned count is the number of valid flags among the other indices. -/
theorem imwarp3_invalid_zero (I_ptr : List ℕ) (w h : ℤ) (H : ℕ → ℕ → ℚ) (X I_ref : ℕ → ℚ)
    (residuals : ℕ → ℚ) (valid : ℕ → Bool) (N : ℕ) (I_warped : Option (ℕ → ℚ)) (i : ℕ)
    (hI : (I_ptr.length : ℤ) = w * h) (hi : i < N)
    (hinv : ¬ (0 ≤ xi3 H X i ∧ xi3 H X i ≤ w - 2 ∧ 0 ≤ yi3 H X i ∧ yi3 H X i ≤ h - 2)) :
    ∃ out, imwarp3 I_ptr w h H X I_ref residuals valid N I_warped = some out ∧
      out.valid i = false ∧ out.residuals i = 0 ∧
      out.I_warped.map (fun b => b i) = I_warped.map (fun _ => 0) ∧
      out.num_valid = ((List.range N).filter fun j => decide (j ≠ i)).countP out.valid := by
  obtain ⟨out, hout, hval, hres, hwarp, hnum⟩ :=
    imwarp3Loop_spec hI H X I_ref ⟨residuals, valid, I_warped, 0⟩ N
  have hb : inBounds3 w h H X i = false := by
    simpa only [inBounds3, decide_eq_false_iff_not] using hinv
  have hv : out.valid i = false := by
    have := hval i
    simp only [hi, if_true] at this
    rw [this, hb]
  refine ⟨out, hout, hv, ?_, ?_, ?_⟩
  · rw [hres i]; simp [hi, hb]
  · rw [hwarp]
    cases I_warped <;> simp [hi, hb]
  · rw [← countP_skip out.valid i hv, hnum, Nat.zero_add]
    apply List.countP_congr
    intro j hj
    rw [hval j]
    simp [List.mem_range.mp hj]

/-- C4, the concrete scenario: in the 4 by 4 image with the identity homography the point
`(3.9, 0, 1)` has `xi = 4`, is marked invalid, its residual and warped intensity are
overwritten with 0 and the return value is 0. -/
theorem imwarp3_invalid_zero_witness :
    xi3 H_id (bufOf [39 / 10, 0, 1]) 0 = 4 ∧
    ∃ out, imwarp3 img4 4 4 H_id (bufOf [39 / 10, 0, 1]) (bufOf [95]) (bufOf [7])
        (fun _ => true) 1 (some (bufOf [9])) = some out ∧
      out.valid 0 = false ∧ out.residuals 0 = 0 ∧
      out.I_warped.map (fun b => b 0) = some 0 ∧ out.num_valid = 0 := by
  refine ⟨by decide!, ?_⟩
  obtain ⟨out, hout, hv, hr, hw, hn⟩ := imwarp3_invalid_zero img4 4 4 H_id
    (bufOf [39 / 10, 0, 1]) (bufOf [95]) (bufOf [7]) (fun _ => true) 1 (some (bufOf [9])) 0
    (by decide) (by decide) (by decide!)
  exact ⟨out, hout, hv, hr, hw, by simpa using hn⟩

/-- Truncation of `k + 0.5` for a non-negative integer `k`. -/
theorem castInt_add_half {k : ℤ} (hk : 0 ≤ k) : castInt ((k : ℚ) + 1 / 2) = k := by
  have hk' : (0 : ℚ) ≤ k := by exact_mod_cast hk
  rw [castInt_of_nonneg (by linarith)]
  rw [Int.floor_eq_iff]
  constructor <;> linarith

/-- C10: for `w ≥ 2`, `h ≥ 2`, an image of `w*h` pixels and an index `i < N`, `imwarp3`
returns and marks `i` valid when the point projects exactly to `(w-2, h-2)`, invalid when
it projects to `x = w-1` (any `y`) or to `y = h-1` (any `x`). -/
theorem imwarp3_high_boundary (I_ptr : List ℕ) (w h : ℤ) (H : ℕ → ℕ → ℚ) (X I_ref : ℕ → ℚ)
    (residuals : ℕ → ℚ) (valid : ℕ → Bool) (N : ℕ) (I_warped : Option (ℕ → ℚ)) (i : ℕ)
    (hI : (I_ptr.length : ℤ) = w * h) (hw : 2 ≤ w) (hh : 2 ≤ h) (hi : i < N) :
    ∃ out, imwarp3 I_ptr w h H X I_ref residuals valid N I_warped = some out ∧
      ((perspective3 H X i).1 = (w : ℚ) - 2 → (perspective3 H X i).2 = (h : ℚ) - 2 →
        out.valid i = true) ∧
      ((perspective3 H X i).1 = (w : ℚ) - 1 → out.valid i = false) ∧
      ((perspective3 H X i).2 = (h : ℚ) - 1 → out.valid i = false) := by
  obtain ⟨out, hout, hval, -, -, -⟩ :=
    imwarp3Loop_spec hI H X I_ref ⟨residuals, valid, I_warped, 0⟩ N
  have hv : out.valid i = inBounds3 w h H X i := by
    have := hval i
    simpa only [hi, if_true] using this
  refine ⟨out, hout, ?_, ?_, ?_⟩
  · intro hx hy
    have h1 : xi3 H X i = w - 2 := by
      rw [xi3, hx, ← castInt_add_half (k := w - 2) (by omega)]; push_cast; rfl
    have h2 : yi3 H X i = h - 2 := by
      rw [yi3, hy, ← castInt_add_half (k := h - 2) (by omega)]; push_cast; rfl
    rw [hv]
    simp only [inBounds3, h1, h2, decide_eq_true_eq]
    omega
  · intro hx
    have h1 : xi3 H X i = w - 1 := by
      rw [xi3, hx, ← castInt_add_half (k := w - 1) (by omega)]; push_cast; rfl
    rw [hv]
    simp only [inBounds3, h1, decide_eq_false_iff_not]
    omega
  · intro hy
    have h2 : yi3 H X i = h - 1 := by
      rw [yi3, hy, ← castInt_add_half (k := h - 1) (by omega)]; push_cast; rfl
    rw [hv]
    simp only [inBounds3, h2, decide_eq_false_iff_not]
    omega

/-- C10 on the 4 by 4 image: the point `(2, 2, 1)` projects to `(w-2, h-2)` and is valid. -/
theorem imwarp3_high_boundary_witness :
    ∃ out, imwarp3 img4 4 4 H_id (bufOf [2, 2, 1]) (bufOf [0]) (bufOf [])
        (fun _ => false) 1 none = some out ∧ out.valid 0 = true := by
  obtain ⟨out, hout, h, -, -⟩ := imwarp3_high_boundary img4 4 4 H_id (bufOf [2, 2, 1])
    (bufOf [0]) (bufOf []) (fun _ => false) 1 none 0 (by decide) (by decide) (by decide)
    (by decide)
  exact ⟨out, hout, h (by decide!) (by decide!)⟩

/-! ## `imwarp3`: negative coordinates -/

/-- C8 as stated fails: in the 4 by 4 image with the identity homography the point
`(-0.25, 0, 1)` projects to `xf = -0.25 < 0`, rounds to `xi = trunc(0.25) = 0` and is
marked valid. -/
theorem imwarp3_negative_coordinate_valid :
    (perspective3 H_id (bufOf [-1 / 4, 0, 1]) 0).1 < 0 ∧
    xi3 H_id (bufOf [-1 / 4, 0, 1]) 0 = 0 ∧
    (imwarp3 img4 4 4 H_id (bufOf [-1 / 4, 0, 1]) (bufOf [0]) (bufOf []) (fun _ => false) 1
      none).map (fun o => o.valid 0) = some true := by
  decide!

/-- C8, amended: for an image of `w*h` pixels and an index `i < N` whose third projected
coordinate is non-zero, a projected coordinate with `xf ≤ -1.5` or `yf ≤ -1.5` makes
`imwarp3` set `valid[i]` to false. -/
theorem imwarp3_far_negative_invalid (I_ptr : List ℕ) (w h : ℤ) (H : ℕ → ℕ → ℚ)
    (X I_ref : ℕ → ℚ) (residuals : ℕ → ℚ) (valid : ℕ → Bool) (N : ℕ)
    (I_warped : Option (ℕ → ℚ)) (i : ℕ)
    (hI : (I_ptr.length : ℤ) = w * h) (hi : i < N) (hz : (homography3 H X i).2.2 ≠ 0)
    (hneg : (perspective3 H X i).1 ≤ -3 / 2 ∨ (perspective3 H X i).2 ≤ -3 / 2) :
    ∃ out, imwarp3 I_ptr w h H X I_ref residuals valid N I_warped = some out ∧
      out.valid i = false := by
  obtain ⟨out, hout, hval, -, -, -⟩ :=
    imwarp3Loop_spec hI H X I_ref ⟨residuals, valid, I_warped, 0⟩ N
  have hv : out.valid i = inBounds3 w h H X i := by
    have := hval i
    simpa only [hi, if_true] using this
  refine ⟨out, hout, ?_⟩
  rw [hv]
  simp only [inBounds3, decide_eq_false_iff_not]
  rintro ⟨hx, -, hy, -⟩
  rcases hneg with hn | hn
  · have := (castInt_nonneg_iff _).mp hx
    linarith
  · have := (castInt_nonneg_iff _).mp hy
    linarith

/-- C8, amended, at the point `(-1.5, 0, 1)` of the 4 by 4 scenario. -/
theorem imwarp3_far_negative_invalid_witness :
    ∃ out, imwarp3 img4 4 4 H_id (bufOf [-3 / 2, 0, 1]) (bufOf [0]) (bufOf [])
        (fun _ => true) 1 none = some out ∧ out.valid 0 = false :=
  imwarp3_far_negative_invalid img4 4 4 H_id (bufOf [-3 / 2, 0, 1]) (bufOf [0]) (bufOf [])
    (fun _ => true) 1 none 0 (by decide) (by decide) (by decide!) (by decide!)

/-- C9 fails on the code: in the 4 by 4 image with the identity homography the point
`(-1.2, 0, 1)` is marked valid with `xi = trunc(-0.7) = 0`, although the nearest integer to
`-1.2` is `-1`, and the offset used as weight is `dx = -1.2 < -0.5`; the stored sample is
the extrapolation `2.2 * I(0,0) - 1.2 * I(0,1) = -12`. -/
theorem imwarp3_truncation_offset :
    (imwarp3 img4 4 4 H_id (bufOf [-6 / 5, 0, 1]) (bufOf [0]) (bufOf []) (fun _ => false) 1
      (some (bufOf []))).map (fun o => (o.valid 0, o.I_warped.map fun b => b 0, o.num_valid))
      = some (true, some (-12), 1) ∧
    xi3 H_id (bufOf [-6 / 5, 0, 1]) 0 = 0 ∧
    (perspective3 H_id (bufOf [-6 / 5, 0, 1]) 0).1 - xi3 H_id (bufOf [-6 / 5, 0, 1]) 0
      = -6 / 5 ∧
    ¬ (-1 / 2 ≤ (perspective3 H_id (bufOf [-6 / 5, 0, 1]) 0).1
        - xi3 H_id (bufOf [-6 / 5, 0, 1]) 0) := by
  decide!

/-! ## `imwarp`: masking, gather and totality -/

theorem land_neg_one (x : ℤ) : Int.land (-1) x = x := by
  cases x with
  | ofNat n =>
    show Int.land (Int.negSucc 0) (Int.ofNat n) = _
    simp only [Int.land]
    congr 1
    apply Nat.eq_of_testBit_eq
    intro k
    simp [Nat.testBit_ldiff]
  | negSucc n =>
    show Int.land (Int.negSucc 0) (Int.negSucc n) = _
    simp only [Int.land]
    congr 1
    exact Nat.zero_or n

theorem land_zero_left (x : ℤ) : Int.land 0 x = 0 := by
  cases x with
  | ofNat n =>
    show Int.land (Int.ofNat 0) (Int.ofNat n) = _
    simp [Int.land]
  | negSucc n =>
    show Int.land (Int.ofNat 0) (Int.negSucc n) = _
    simp only [Int.land]
    show ((Nat.ldiff 0 n : ℕ) : ℤ) = 0
    congr 1
    apply Nat.eq_of_testBit_eq
    intro k
    simp [Nat.testBit_ldiff]

/-- One lane of lines 452-453: the rounded coordinate is kept when it lies strictly between
the lower bound `-1` and the upper bound, and replaced by `0` otherwise. -/
theorem maskedLane (x ub : ℤ) :
    Int.land (Int.land (if x > -1 then -1 else 0) (if x < ub then -1 else 0)) x
      = if -1 < x ∧ x < ub then x else 0 := by
  by_cases h1 : x > -1 <;> by_cases h2 : x < ub
  · rw [if_pos h1, if_pos h2, if_pos ⟨h1, h2⟩, land_neg_one, land_neg_one]
  · rw [if_pos h1, if_neg h2, if_neg (fun h => h2 h.2), land_neg_one, land_zero_left]
  · rw [if_neg h1, if_pos h2, if_neg (fun h => h1 h.1), land_zero_left, land_zero_left]
  · rw [if_neg h1, if_neg h2, if_neg (fun h => h1 h.1), land_zero_left, land_zero_left]

theorem maskedLane_bounds (x ub k : ℤ) (hk0 : 0 ≤ k) (hk : ub ≤ k + 1) :
    0 ≤ Int.land (Int.land (if x > -1 then -1 else 0) (if x < ub then -1 else 0)) x ∧
    Int.land (Int.land (if x > -1 then -1 else 0) (if x < ub then -1 else 0)) x ≤ k := by
  rw [maskedLane]
  split_ifs with h <;> omega

/-- The four reads of a 2 by 2 neighbourhood anchored at column `u ∈ [0, w-2]`, row
`v ∈ [0, h-2]` stay inside a `w` by `h` image. -/
theorem neighbourhood_isSome {I : List ℕ} {w h : ℤ} (hI : (I.length : ℤ) = w * h)
    {u v : ℤ} (hu : 0 ≤ u ∧ u ≤ w - 2) (hv : 0 ≤ v ∧ v ≤ h - 2) :
    ∃ p0 p1 p2 p3 : ℕ, readPixel I (v * w + u) = some p0 ∧
      readPixel I (v * w + u + 1) = some p1 ∧ readPixel I (v * w + u + w) = some p2 ∧
      readPixel I (v * w + u + w + 1) = some p3 := by
  obtain ⟨p0, h0⟩ := readPixel_isSome hI hv.1 (by omega) hu.1 (by omega)
  obtain ⟨p1, h1⟩ := readPixel_isSome hI hv.1 (by omega) (c := u + 1) (by omega) (by omega)
  obtain ⟨p2, h2⟩ := readPixel_isSome hI (r := v + 1) (by omega) (by omega) hu.1 (by omega)
  obtain ⟨p3, h3⟩ := readPixel_isSome hI (r := v + 1) (by omega) (by omega)
    (c := u + 1) (by omega) (by omega)
  have e1 : v * w + u + 1 = v * w + (u + 1) := by ring
  have e2 : v * w + u + w = (v + 1) * w + u := by ring
  have e3 : v * w + u + w + 1 = (v + 1) * w + (u + 1) := by ring
  rw [← e1] at h1
  rw [← e2] at h2
  rw [← e3] at h3
  exact ⟨p0, p1, p2, p3, h0, h1, h2, h3⟩

/-- The gather at a masked coordinate stays inside a `w` by `h` image. -/
theorem gather_isSome {I : List ℕ} {w h : ℤ} (hI : (I.length : ℤ) = w * h)
    {u v : ℤ} (hu : 0 ≤ u ∧ u ≤ w - 2) (hv : 0 ≤ v ∧ v ≤ h - 2) :
    ∃ px, gather I w u v = some px := by
  obtain ⟨p0, p1, p2, p3, h0, h1, h2, h3⟩ := neighbourhood_isSome hI hu hv
  refine ⟨_mm_set_ps p3 p2 p1 p0, ?_⟩
  unfold gather
  simp only [h0, h1, h2, h3, Option.bind]

theorem bind_returns {α β : Type} {o : Option α} {f : α → Option β} {Q : β → Prop}
    (ho : ∃ a, o = some a) (hf : ∀ a, ∃ r, f a = some r ∧ Q r) :
    ∃ r, o.bind f = some r ∧ Q r := by
  obtain ⟨a, rfl⟩ := ho
  exact hf a

/-- A block of the vectorized loop returns on a `w` by `h` image with `w, h ≥ 2`, and
stores no flag other than `valid[i + j]` and `valid[i + j + 1]`. -/
theorem imwarpPair_returns (csr : Mxcsr) {I : List ℕ} {w h : ℤ}
    (hI : (I.length : ℤ) = w * h) (hw : 2 ≤ w) (hh : 2 ≤ h) (c0 c1 c2 c3 : M128)
    (X : ℕ → ℚ) (i off j : ℕ) (valid : ℕ → Bool) :
    ∃ r, imwarpPair csr I w h c0 c1 c2 c3 X i off j valid = some r ∧
      ∀ k, k ≠ i + j → k ≠ i + j + 1 → r.1 k = valid k := by
  unfold imwarpPair
  dsimp only
  refine bind_returns (gather_isSome hI ?_ ?_) (fun px => ?_)
  · exact maskedLane_bounds _ (w - 1) (w - 2) (by omega) (by omega)
  · exact maskedLane_bounds _ (h - 1) (h - 2) (by omega) (by omega)
  refine bind_returns (gather_isSome hI ?_ ?_) (fun px2 => ?_)
  · exact maskedLane_bounds _ (w - 1) (w - 2) (by omega) (by omega)
  · exact maskedLane_bounds _ (h - 1) (h - 2) (by omega) (by omega)
  refine ⟨_, rfl, fun k hk1 hk2 => ?_⟩
  simp only [store, if_neg hk1, if_neg hk2]

/-- The body of the vectorized loop returns, leaves the flags below `i` alone and adds
the four flags it has just stored to `num_valid`. -/
theorem imwarpGroup_spec (csr : Mxcsr) {I : List ℕ} {w h : ℤ}
    (hI : (I.length : ℤ) = w * h) (hw : 2 ≤ w) (hh : 2 ≤ h) (P X I_ref : ℕ → ℚ) (i : ℕ)
    (s : Outputs) :
    ∃ s', imwarpGroup csr I w h P X I_ref i s = some s' ∧
      (∀ k, k < i → s'.valid k = s.valid k) ∧
      s'.num_valid = s.num_valid + ((s'.valid i).toNat + (s'.valid (i + 1)).toNat
        + (s'.valid (i + 2)).toNat + (s'.valid (i + 3)).toNat) := by
  obtain ⟨⟨v1, a1, b1⟩, h1, hv1⟩ := imwarpPair_returns csr hI hw hh (_mm_load_ps P 0)
    (_mm_load_ps P 4) (_mm_load_ps P 8) (_mm_load_ps P 12) X i 0 0 s.valid
  obtain ⟨⟨v2, a2, b2⟩, h2, hv2⟩ := imwarpPair_returns csr hI hw hh (_mm_load_ps P 0)
    (_mm_load_ps P 4) (_mm_load_ps P 8) (_mm_load_ps P 12) X i 8 2 v1
  unfold imwarpGroup
  simp only [h1, h2, Option.bind]
  refine ⟨_, rfl, fun k hk => ?_, rfl⟩
  exact (hv2 k (by omega) (by omega)).trans (hv1 k (by omega) (by omega))

theorem range_add_four (n : ℕ) :
    List.range (n + 4) = List.range n ++ [n, n + 1, n + 2, n + 3] := by
  simp [List.range_succ]

theorem countP_four (p : ℕ → Bool) (a b c d : ℕ) :
    [a, b, c, d].countP p = (p a).toNat + (p b).toNat + (p c).toNat + (p d).toNat := by
  cases ha : p a <;> cases hb : p b <;> cases hc : p c <;> cases hd : p d <;>
    simp [List.countP_cons, ha, hb, hc, hd]

/-- After `g` groups the counter is the number of flags set among the first `4 g`. -/
theorem imwarpGroups_count (csr : Mxcsr) {I : List ℕ} {w h : ℤ}
    (hI : (I.length : ℤ) = w * h) (hw : 2 ≤ w) (hh : 2 ≤ h) (P X I_ref : ℕ → ℚ)
    (s : Outputs) (hs : s.num_valid = 0) (g : ℕ) :
    ∃ s', imwarpGroups csr I w h P X I_ref g s = some s' ∧
      s'.num_valid = (List.range (4 * g)).countP s'.valid := by
  induction g with
  | zero => exact ⟨s, rfl, by simp [hs]⟩
  | succ g ih =>
    obtain ⟨s1, h1, hn1⟩ := ih
    obtain ⟨s2, h2, hv2, hn2⟩ := imwarpGroup_spec csr hI hw hh P X I_ref (4 * g) s1
    refine ⟨s2, by rw [imwarpGroups, h1]; exact h2, ?_⟩
    have hr : 4 * (g + 1) = 4 * g + 4 := by ring
    rw [hr, range_add_four, List.countP_append, countP_four, hn2, hn1]
    congr 1
    apply List.countP_congr
    intro k hk
    rw [hv2 k (List.mem_range.mp hk)]

/-- The body of the scalar remainder loop returns on a `w` by `h` image, stores no flag
other than `valid[i]` and adds that flag to `num_valid`. -/
theorem imwarpScalarPoint_spec {I : List ℕ} {w h : ℤ} (hI : (I.length : ℤ) = w * h)
    (P X I_ref : ℕ → ℚ) (i : ℕ) (s : Outputs) :
    ∃ s', imwarpScalarPoint I w h P X I_ref i s = some s' ∧
      (∀ k, k ≠ i → s'.valid k = s.valid k) ∧
      s'.num_valid = s.num_valid + (s'.valid i).toNat := by
  unfold imwarpScalarPoint
  dsimp only
  split_ifs with hc
  · have hc' := hc
    simp only [store, if_true, Bool.and_eq_true, decide_eq_true_eq, ge_iff_le] at hc'
    obtain ⟨⟨⟨hx0, hx1⟩, hy0⟩, hy1⟩ := hc'
    have hu : 0 ≤ castInt ((projective3 P X i).1 * (1 / (projective3 P X i).2.2) + 1 / 2) ∧
        castInt ((projective3 P X i).1 * (1 / (projective3 P X i).2.2) + 1 / 2) ≤ w - 2 :=
      ⟨hx0, by omega⟩
    have hv : 0 ≤ castInt ((projective3 P X i).2.1 * (1 / (projective3 P X i).2.2) + 1 / 2) ∧
        castInt ((projective3 P X i).2.1 * (1 / (projective3 P X i).2.2) + 1 / 2) ≤ h - 2 :=
      ⟨hy0, by omega⟩
    obtain ⟨p0, p1, p2, p3, h0, h1, h2, h3⟩ := neighbourhood_isSome hI hu hv
    simp only [h0, h1, h2, h3, Option.bind]
    refine ⟨_, rfl, fun k hk => ?_, ?_⟩
    · simp only [store, if_neg hk]
    · simp only [hc, Bool.toNat_true]
  · refine ⟨_, rfl, fun k hk => ?_, ?_⟩
    · simp only [store, if_neg hk]
    · simp only [Bool.not_eq_true] at hc
      simp only [hc, Bool.toNat_false, Nat.add_zero]

/-- After the remainder loop the counter is the number of flags set below its end. -/
theorem imwarpRemainder_count {I : List ℕ} {w h : ℤ} (hI : (I.length : ℤ) = w * h)
    (P X I_ref : ℕ → ℚ) (start : ℕ) (s : Outputs)
    (hs : s.num_valid = (List.range start).countP s.valid) (m : ℕ) :
    ∃ s', imwarpRemainder I w h P X I_ref start m s = some s' ∧
      s'.num_valid = (List.range (start + m)).countP s'.valid := by
  induction m with
  | zero => exact ⟨s, rfl, hs⟩
  | succ m ih =>
    obtain ⟨s1, h1, hn1⟩ := ih
    obtain ⟨s2, h2, hv2, hn2⟩ := imwarpScalarPoint_spec hI P X I_ref (start + m) s1
    refine ⟨s2, by rw [imwarpRemainder, h1]; exact h2, ?_⟩
    rw [← Nat.add_assoc, List.range_succ, List.countP_append, hn2, hn1]
    congr 1
    · apply List.countP_congr
      intro k hk
      rw [hv2 k (Nat.ne_of_lt (List.mem_range.mp hk))]

/-- After lines 406-410 MXCSR is round-toward-zero with flush-to-zero on. -/
theorem imwarpEnter_modes (csr : Mxcsr) :
    (imwarpEnter csr).2 = ⟨RoundingMode.TOWARD_ZERO, FlushZeroMode.ON⟩ := by
  obtain ⟨rm, fm⟩ := csr
  cases rm <;> cases fm <;> rfl

/-- Lines 598-599 undo lines 406-410. -/
theorem imwarpLeave_enter (csr : Mxcsr) :
    imwarpLeave (imwarpEnter csr).1 (imwarpEnter csr).2 = csr := by
  obtain ⟨rm, fm⟩ := csr
  cases rm <;> cases fm <;> rfl

/-- The call of `imwarp` as its two loops on the output buffers, run under round-toward-zero
with flush-to-zero on, with MXCSR at exit equal to MXCSR at entry. -/
theorem imwarp_eq_loops (csr : Mxcsr) (I : List ℕ) (w h : ℤ) (P X I_ref : ℕ → ℚ)
    (residuals : ℕ → ℚ) (valid : ℕ → Bool) (N : ℕ) (I_warped : Option (ℕ → ℚ)) :
    imwarp csr I w h P X I_ref residuals valid N I_warped =
      ((imwarpGroups ⟨RoundingMode.TOWARD_ZERO, FlushZeroMode.ON⟩ I w h P X I_ref
          ((N - N % 4) / 4) ⟨residuals, valid, I_warped, 0⟩).bind
        (imwarpRemainder I w h P X I_ref (N - N % 4) (N - (N - N % 4)))).map
        (fun s => (s, csr)) := by
  have hl := imwarpLeave_enter csr
  rw [imwarpEnter_modes] at hl
  unfold imwarp imwarpGroupsM imwarpRemainderM
  dsimp only
  rw [imwarpEnter_modes]
  cases imwarpGroups ⟨RoundingMode.TOWARD_ZERO, FlushZeroMode.ON⟩ I w h P X I_ref
      ((N - N % 4) / 4) ⟨residuals, valid, I_warped, 0⟩ with
  | none => rfl
  | some s1 =>
    simp only [Option.map_some', Option.bind]
    cases imwarpRemainder I w h P X I_ref (N - N % 4) (N - (N - N % 4)) s1 with
    | none => rfl
    | some s2 => simp only [Option.map_some', hl]

/-- On a `w` by `h` image with `w, h ≥ 2` the call of `imwarp` returns, and the value
returned is the number of flags set in `valid[0 .. N)`. -/
theorem imwarp_returns_count (csr : Mxcsr) {I : List ℕ} {w h : ℤ}
    (hI : (I.length : ℤ) = w * h) (hw : 2 ≤ w) (hh : 2 ≤ h) (P X I_ref : ℕ → ℚ)
    (residuals : ℕ → ℚ) (valid : ℕ → Bool) (N : ℕ) (I_warped : Option (ℕ → ℚ)) :
    ∃ r, imwarp csr I w h P X I_ref residuals valid N I_warped = some r ∧
      r.1.num_valid = (List.range N).countP r.1.valid := by
  obtain ⟨s1, h1, hn1⟩ := imwarpGroups_count ⟨RoundingMode.TOWARD_ZERO, FlushZeroMode.ON⟩
    hI hw hh P X I_ref ⟨residuals, valid, I_warped, 0⟩ rfl ((N - N % 4) / 4)
  have e4 : 4 * ((N - N % 4) / 4) = N - N % 4 := by omega
  rw [e4] at hn1
  obtain ⟨s2, h2, hn2⟩ := imwarpRemainder_count hI P X I_ref (N - N % 4) s1 hn1
    (N - (N - N % 4))
  have eN : N - N % 4 + (N - (N - N % 4)) = N := by omega
  rw [eN] at hn2
  refine ⟨(s2, csr), ?_, hn2⟩
  rw [imwarp_eq_loops, h1]
  simp only [Option.bind, h2, Option.map_some']

/-! ## The returned count -/

/-- C3: both batch evaluators return exactly the number of indices of `[0, N)` whose
`valid` flag is true after the call, a number in `[0, N]` that is `0` when `N = 0`:
`imwarp3` on an image of `w*h` pixels, and the 3-D `imwarp` (groups of four, then the scalar
remainder) on such an image with `w, h ≥ 2`. -/
theorem batch_return_count (csr : Mxcsr) (I_ptr : List ℕ) (w h : ℤ) (H : ℕ → ℕ → ℚ)
    (P X2 X3 I_ref : ℕ → ℚ) (residuals : ℕ → ℚ) (valid : ℕ → Bool) (N : ℕ)
    (I_warped : Option (ℕ → ℚ)) (hI : (I_ptr.length : ℤ) = w * h) :
    (∃ out, imwarp3 I_ptr w h H X2 I_ref residuals valid N I_warped = some out ∧
      out.num_valid = (List.range N).countP out.valid ∧
      out.num_valid ≤ N ∧ (N = 0 → out.num_valid = 0)) ∧
    (2 ≤ w → 2 ≤ h →
      ∃ r, imwarp csr I_ptr w h P X3 I_ref residuals valid N I_warped = some r ∧
        r.1.num_valid = (List.range N).countP r.1.valid ∧
        r.1.num_valid ≤ N ∧ (N = 0 → r.1.num_valid = 0)) := by
  have hle : ∀ p : ℕ → Bool, (List.range N).countP p ≤ N := fun p => by
    have := List.countP_le_length p (l := List.range N)
    simpa using this
  constructor
  · obtain ⟨out, hout, hval, -, -, hnum⟩ :=
      imwarp3Loop_spec hI H X2 I_ref ⟨residuals, valid, I_warped, 0⟩ N
    have hc : out.num_valid = (List.range N).countP out.valid := by
      rw [hnum, Nat.zero_add]
      apply List.countP_congr
      intro j hj
      rw [hval j]
      simp [List.mem_range.mp hj]
    refine ⟨out, hout, hc, hc ▸ hle _, fun h0 => ?_⟩
    have := hc ▸ hle out.valid
    omega
  · intro hw hh
    obtain ⟨r, hr, hc⟩ := imwarp_returns_count csr hI hw hh P X3 I_ref residuals valid N I_warped
    refine ⟨r, hr, hc, hc ▸ hle _, fun h0 => ?_⟩
    have := hc ▸ hle r.1.valid
    omega

/-- C3 on the 4 by 4 image with identity matrices and five points: `imwarp3` counts the
two valid points of its batch, `imwarp` returns 4 with four flags set. -/
theorem batch_return_count_witness :
    (∃ out, imwarp3 img4 4 4 H_id
        (bufOf [3 / 2, 3 / 2, 1, 39 / 10, 0, 1, 1, 1, 1, 5, 5, 1, -3, 0, 1])
        (bufOf [95]) (bufOf []) (fun _ => false) 5 none = some out ∧
      out.num_valid = 2 ∧ (List.range 5).countP out.valid = 2) ∧
    (∃ r, imwarp csr0 img4 4 4 P_id
        (bufOf [0, 1, 1, 1, 5 / 4, 1, 1, 1, 1, 1, 1, 1, 3 / 2, 3 / 2, 1, 1, 1, 2, 1, 1])
        (bufOf [95]) (bufOf []) (fun _ => false) 5 none = some r ∧
      r.1.num_valid = 4 ∧ (List.range 5).countP r.1.valid = 4) := by
  obtain ⟨⟨out, hout, hc, -, -⟩, h2⟩ := batch_return_count csr0 img4 4 4 H_id P_id
    (bufOf [3 / 2, 3 / 2, 1, 39 / 10, 0, 1, 1, 1, 1, 5, 5, 1, -3, 0, 1])
    (bufOf [0, 1, 1, 1, 5 / 4, 1, 1, 1, 1, 1, 1, 1, 3 / 2, 3 / 2, 1, 1, 1, 2, 1, 1])
    (bufOf [95]) (bufOf []) (fun _ => false) 5 none (by decide)
  obtain ⟨r, hr, hc2, -, -⟩ := h2 (by decide) (by decide)
  have e1 : (imwarp3 img4 4 4 H_id
      (bufOf [3 / 2, 3 / 2, 1, 39 / 10, 0, 1, 1, 1, 1, 5, 5, 1, -3, 0, 1])
      (bufOf [95]) (bufOf []) (fun _ => false) 5 none).map (fun o => o.num_valid)
      = some 2 := by decide!
  have e2 : (imwarp csr0 img4 4 4 P_id
      (bufOf [0, 1, 1, 1, 5 / 4, 1, 1, 1, 1, 1, 1, 1, 3 / 2, 3 / 2, 1, 1, 1, 2, 1, 1])
      (bufOf [95]) (bufOf []) (fun _ => false) 5 none).map (fun o => o.1.num_valid)
      = some 4 := by decide!
  rw [hout] at e1
  rw [hr] at e2
  simp only [Option.map_some', Option.some.injEq] at e1 e2
  exact ⟨⟨out, hout, e1, hc ▸ e1⟩, ⟨r, hr, e2, hc2 ▸ e2⟩⟩

/-! ## `imwarp`: where the vectorized loop departs from the scalar rule -/

/-- C5 fails on the code: on the 4 by 4 image with the identity projection, the point
`(0, 1, 1, 1)` has `xi = 0 ∈ [0, w-2]` and `yi = 1 ∈ [0, h-2]`; as lane 0 of a full group
of four the vectorized loop stores `valid[0] = false` (the masked `buf[0]` is `0`, and line
457 tests `buf[0] && buf[1]`), while the scalar rule of lines 572-575, reached with
`N = 1`, stores `valid[0] = true` for the same point. -/
theorem imwarp_vector_flag_at_column_zero :
    xi4 P_id (bufOf [0, 1, 1, 1, 1, 1, 1, 1, 1, 1, 1, 1, 1, 1, 1, 1]) 0 = 0 ∧
    yi4 P_id (bufOf [0, 1, 1, 1, 1, 1, 1, 1, 1, 1, 1, 1, 1, 1, 1, 1]) 0 = 1 ∧
    (imwarp csr0 img4 4 4 P_id (bufOf [0, 1, 1, 1, 1, 1, 1, 1, 1, 1, 1, 1, 1, 1, 1, 1])
      (bufOf [0, 0, 0, 0]) (bufOf []) (fun _ => true) 4 none).map
        (fun r => (r.1.valid 0, r.1.num_valid)) = some (false, 3) ∧
    (imwarp csr0 img4 4 4 P_id (bufOf [0, 1, 1, 1, 1, 1, 1, 1, 1, 1, 1, 1, 1, 1, 1, 1])
      (bufOf [0, 0, 0, 0]) (bufOf []) (fun _ => true) 1 none).map
        (fun r => (r.1.valid 0, r.1.num_valid)) = some (true, 1) := by
  decide!

/-- C6 fails on the code: on the 4 by 4 image with the identity projection, the point
`(1.25, 1, 1, 1)` has `xi = yi = 1`, `dx = 0.25`, `dy = 0`, and the bilinear value of the
specification is `0.75 * 50 + 0.25 * 60 = 52.5`, which the scalar path stores when the
point is a remainder (`N = 1`); as lane 0 of a full group the vectorized loop stores
`0.75 * 50 + 0.25 * 90 = 60`: it pairs the weight `dx (1-dy)` with `I(yi+1, xi)` and
`(1-dx) dy` with `I(yi, xi+1)`. -/
theorem imwarp_vector_sample_swapped_weights :
    xi4 P_id (bufOf [5 / 4, 1, 1, 1, 1, 1, 1, 1, 1, 1, 1, 1, 1, 1, 1, 1]) 0 = 1 ∧
    yi4 P_id (bufOf [5 / 4, 1, 1, 1, 1, 1, 1, 1, 1, 1, 1, 1, 1, 1, 1, 1]) 0 = 1 ∧
    sample4 img4 4 P_id (bufOf [5 / 4, 1, 1, 1, 1, 1, 1, 1, 1, 1, 1, 1, 1, 1, 1, 1]) 0
      = 105 / 2 ∧
    (imwarp csr0 img4 4 4 P_id (bufOf [5 / 4, 1, 1, 1, 1, 1, 1, 1, 1, 1, 1, 1, 1, 1, 1, 1])
      (bufOf [100, 0, 0, 0]) (bufOf []) (fun _ => false) 4 (some (bufOf []))).map
        (fun r => (r.1.valid 0, r.1.I_warped.map fun b => b 0, r.1.residuals 0))
      = some (true, some 60, 40) ∧
    (imwarp csr0 img4 4 4 P_id (bufOf [5 / 4, 1, 1, 1, 1, 1, 1, 1, 1, 1, 1, 1, 1, 1, 1, 1])
      (bufOf [100, 0, 0, 0]) (bufOf []) (fun _ => false) 1 (some (bufOf []))).map
        (fun r => (r.1.valid 0, r.1.I_warped.map fun b => b 0, r.1.residuals 0))
      = some (true, some (105 / 2), 95 / 2) := by
  decide!

/-- C7 fails on the code: on the 4 by 4 image with the identity projection and `N = 1`, the
remainder point `(3.9, 0, 1, 1)` has `xi = 4` and is invalid; the scalar remainder loop of
`imwarp` has no `else` branch, so `residuals[0]` and `I_warped[0]` keep the values 7 and 9
they held before the call, where `imwarp3` stores 0 in both for the same point. -/
theorem imwarp_remainder_invalid_keeps_slots :
    xi4 P_id (bufOf [39 / 10, 0, 1, 1]) 0 = 4 ∧
    (imwarp csr0 img4 4 4 P_id (bufOf [39 / 10, 0, 1, 1]) (bufOf [95]) (bufOf [7])
      (fun _ => true) 1 (some (bufOf [9]))).map
        (fun r => (r.1.valid 0, r.1.residuals 0, r.1.I_warped.map fun b => b 0, r.1.num_valid))
      = some (false, 7, some 9, 0) ∧
    (imwarp3 img4 4 4 H_id (bufOf [39 / 10, 0, 1]) (bufOf [95]) (bufOf [7])
      (fun _ => true) 1 (some (bufOf [9]))).map
        (fun o => (o.valid 0, o.residuals 0, o.I_warped.map fun b => b 0, o.num_valid))
      = some (false, 0, some 0, 0) := by
  decide!

/-! ## `imwarp3`: exactness at pixel centres -/

/-- At zero offsets the bilinear value is the anchor pixel. -/
theorem bilinear_zero (I : ℤ → ℤ → ℚ) (xi yi : ℤ) : bilinear I xi yi 0 0 = I yi xi := by
  simp only [bilinear]
  ring

/-- A point projecting exactly to the integer coordinate `(a, b)` with `a, b ≥ 0` rounds to
`(a, b)` and its sample is the pixel `I(b, a)`. -/
theorem sample3_at_centre (I_ptr : List ℕ) (w : ℤ) (H : ℕ → ℕ → ℚ) (X : ℕ → ℚ) (i : ℕ)
    {a b : ℤ} (hp : perspective3 H X i = ((a : ℚ), (b : ℚ))) (ha : 0 ≤ a) (hb : 0 ≤ b) :
    xi3 H X i = a ∧ yi3 H X i = b ∧ sample3 I_ptr w H X i = pixel I_ptr w b a := by
  have hx : xi3 H X i = a := by rw [xi3, hp]; exact castInt_add_half ha
  have hy : yi3 H X i = b := by rw [yi3, hp]; exact castInt_add_half hb
  refine ⟨hx, hy, ?_⟩
  rw [sample3, hx, hy, hp]
  simp only [sub_self, bilinear_zero]

/-- With the identity homography the point `(a, b, 1)` projects to `(a, b)`. -/
theorem perspective3_identity (X : ℕ → ℚ) (i : ℕ) {a b : ℚ}
    (hx : X (3 * i) = a) (hy : X (3 * i + 1) = b) (hz : X (3 * i + 2) = 1) :
    perspective3 H_id X i = (a, b) := by
  simp [perspective3, homography3, H_id, hx, hy, hz]

/-- C11: on an image of `w*h` pixels, a point of `imwarp3` that projects exactly to integer
coordinates `(a, b)` with `0 ≤ a ≤ w-2` and `0 ≤ b ≤ h-2` (third projected coordinate
non-zero) is valid with `I_warped[i] = I(b, a)` and `residuals[i] = I_ref[i] - I(b, a)`;
hence with the identity homography, points `(a, b, 1)` at pixel coordinates (integers
`a, b ≥ 0`) and `I_ref[i] = I(b, a)`, every valid point has residual 0. -/
theorem imwarp3_exact_at_pixel_centres (I_ptr : List ℕ) (w h : ℤ) (H : ℕ → ℕ → ℚ)
    (X I_ref : ℕ → ℚ) (residuals : ℕ → ℚ) (valid : ℕ → Bool) (N : ℕ)
    (I_warped : Option (ℕ → ℚ)) (hI : (I_ptr.length : ℤ) = w * h) :
    (∃ out, imwarp3 I_ptr w h H X I_ref residuals valid N I_warped = some out ∧
      ∀ i < N, ∀ a b : ℤ, (homography3 H X i).2.2 ≠ 0 →
        perspective3 H X i = ((a : ℚ), (b : ℚ)) → 0 ≤ a → a ≤ w - 2 → 0 ≤ b → b ≤ h - 2 →
        out.valid i = true ∧ out.residuals i = I_ref i - pixel I_ptr w b a ∧
        out.I_warped.map (fun buf => buf i) = I_warped.map (fun _ => pixel I_ptr w b a)) ∧
    ((∀ i < N, ∃ a b : ℤ, 0 ≤ a ∧ 0 ≤ b ∧ X (3 * i) = a ∧ X (3 * i + 1) = b ∧
        X (3 * i + 2) = 1 ∧ I_ref i = pixel I_ptr w b a) →
      ∃ out, imwarp3 I_ptr w h H_id X I_ref residuals valid N I_warped = some out ∧
        ∀ i < N, out.valid i = true → out.residuals i = 0) := by
  constructor
  · obtain ⟨out, hout, hval, hres, hwarp, -⟩ :=
      imwarp3Loop_spec hI H X I_ref ⟨residuals, valid, I_warped, 0⟩ N
    refine ⟨out, hout, fun i hi a b _ hp ha0 ha1 hb0 hb1 => ?_⟩
    obtain ⟨hx, hy, hS⟩ := sample3_at_centre I_ptr w H X i hp ha0 hb0
    have hin : inBounds3 w h H X i = true := by
      simp only [inBounds3, hx, hy, decide_eq_true_eq]
      exact ⟨ha0, ha1, hb0, hb1⟩
    refine ⟨?_, ?_, ?_⟩
    · rw [hval i]; simp [hi, hin]
    · rw [hres i, ← hS]; simp [hi, hin]
    · rw [hwarp, ← hS]
      cases I_warped <;> simp [hi, hin]
  · intro hpts
    obtain ⟨out, hout, hval, hres, -, -⟩ :=
      imwarp3Loop_spec hI H_id X I_ref ⟨residuals, valid, I_warped, 0⟩ N
    refine ⟨out, hout, fun i hi hv => ?_⟩
    obtain ⟨a, b, ha0, hb0, hxa, hyb, hz1, href⟩ := hpts i hi
    have hp := perspective3_identity X i hxa hyb hz1
    obtain ⟨-, -, hS⟩ := sample3_at_centre I_ptr w H_id X i hp ha0 hb0
    have hin : inBounds3 w h H_id X i = true := by
      have := hval i
      simp only [hi, if_true] at this
      rw [← this]; exact hv
    rw [hres i]
    simp [hi, hin, hS, href]

/-- C11 on the 4 by 4 image with the identity homography: the points `(1, 2, 1)` and
`(2, 0, 1)` with references `I(2, 1) = 90` and `I(0, 2) = 20` are valid with residual 0. -/
theorem imwarp3_exact_at_pixel_centres_witness :
    ∃ out, imwarp3 img4 4 4 H_id (bufOf [1, 2, 1, 2, 0, 1]) (bufOf [90, 20]) (bufOf [7, 7])
        (fun _ => false) 2 (some (bufOf [])) = some out ∧
      out.valid 0 = true ∧ out.valid 1 = true ∧
      out.residuals 0 = 0 ∧ out.residuals 1 = 0 ∧
      out.I_warped.map (fun buf => buf 0) = some 90 := by
  obtain ⟨⟨out, hout, h⟩, h2⟩ := imwarp3_exact_at_pixel_centres img4 4 4 H_id
    (bufOf [1, 2, 1, 2, 0, 1]) (bufOf [90, 20]) (bufOf [7, 7]) (fun _ => false) 2
    (some (bufOf [])) (by decide)
  obtain ⟨hv0, -, hw0⟩ := h 0 (by decide) 1 2 (by decide!) (by decide!) (by decide)
    (by decide) (by decide) (by decide)
  obtain ⟨hv1, -, -⟩ := h 1 (by decide) 2 0 (by decide!) (by decide!) (by decide)
    (by decide) (by decide) (by decide)
  have hpts : ∀ i < 2, ∃ a b : ℤ, 0 ≤ a ∧ 0 ≤ b ∧ bufOf [1, 2, 1, 2, 0, 1] (3 * i) = a ∧
      bufOf [1, 2, 1, 2, 0, 1] (3 * i + 1) = b ∧ bufOf [1, 2, 1, 2, 0, 1] (3 * i + 2) = 1 ∧
      bufOf [90, 20] i = pixel img4 4 b a := by
    intro i hi
    interval_cases i
    · exact ⟨1, 2, by decide, by decide, by decide!, by decide!, by decide!, by decide!⟩
    · exact ⟨2, 0, by decide, by decide, by decide!, by decide!, by decide!, by decide!⟩
  obtain ⟨out2, hout2, hres⟩ := h2 hpts
  have ho : out2 = out := Option.some.inj (hout2.symm.trans hout)
  subst ho
  have e2 : pixel img4 4 2 1 = 90 := by decide!
  refine ⟨out2, hout, hv0, hv1, hres 0 (by decide) hv0, hres 1 (by decide) hv1, ?_⟩
  rw [hw0, e2]; rfl

/-! ## `imwarp`: the floating-point environment -/

/-- The lookup succeeds exactly on the offsets of the buffer. -/
theorem readPixel_isSome_iff (I : List ℕ) (off : ℤ) :
    (readPixel I off).isSome ↔ 0 ≤ off ∧ off < I.length := by
  unfold readPixel
  by_cases h0 : 0 ≤ off
  · simp only [if_pos h0, h0, true_and]
    rw [Option.isSome_iff_exists]
    constructor
    · rintro ⟨p, hp⟩
      obtain ⟨hlt, -⟩ := List.getElem?_eq_some.mp hp
      omega
    · intro hlt
      have h2 : off.toNat < I.length := by omega
      exact ⟨_, List.getElem?_eq_getElem h2⟩
  · simp [if_neg h0, h0]

/-- The gather reads the four indices of the neighbourhood, and nothing else. -/
theorem gather_isSome_iff (I : List ℕ) (w u v : ℤ) :
    (gather I w u v).isSome ↔ ∀ idx ∈ neighbourhood w u v, (readPixel I idx).isSome := by
  have e2 : (v + 1) * w + u = v * w + u + w := by ring
  have e3 : (v + 1) * w + u + 1 = v * w + u + w + 1 := by ring
  unfold gather neighbourhood
  simp only [List.mem_cons, List.mem_singleton, List.not_mem_nil, or_false, forall_eq_or_imp,
    forall_eq, e2, e3]
  cases readPixel I (v * w + u) <;> cases readPixel I (v * w + u + 1) <;>
    cases readPixel I (v * w + u + w) <;> cases readPixel I (v * w + u + w + 1) <;>
    simp [Option.bind]

theorem bind_bind_isSome {α β γ : Type} (a : Option α) (b : α → Option β) (g : α → β → γ) :
    (a.bind fun x => (b x).bind fun y => some (g x y)).isSome
      ↔ ∃ x, a = some x ∧ (b x).isSome := by
  cases a with
  | none => simp
  | some x =>
    cases hb : b x <;> simp [Option.bind, hb]

/-- A block of the vectorized loop reads the image through two gathers only, at the masked
coordinates held in `buf`. -/
theorem imwarpPair_isSome_iff (csr : Mxcsr) (I : List ℕ) (w h : ℤ) (c0 c1 c2 c3 : M128)
    (X : ℕ → ℚ) (i off j : ℕ) (valid : ℕ → Bool) :
    (imwarpPair csr I w h c0 c1 c2 c3 X i off j valid).isSome ↔
      (gather I w (pairBuf csr w h c0 c1 c2 c3 X i off).e0
        (pairBuf csr w h c0 c1 c2 c3 X i off).e1).isSome ∧
      (gather I w (pairBuf csr w h c0 c1 c2 c3 X i off).e2
        (pairBuf csr w h c0 c1 c2 c3 X i off).e3).isSome := by
  unfold imwarpPair pairBuf maskedBuf pairXf
  dsimp only
  rw [bind_bind_isSome]
  constructor
  · rintro ⟨x, hx, hb⟩
    exact ⟨by rw [hx]; rfl, hb⟩
  · rintro ⟨ha, hb⟩
    obtain ⟨x, hx⟩ := Option.isSome_iff_exists.mp ha
    exact ⟨x, hx, hb⟩

/-- The scalar remainder reads the image for a valid point only, at the four indices of the
neighbourhood of its rounded coordinates. -/
theorem imwarpScalarPoint_isSome_iff (I : List ℕ) (w h : ℤ) (P X I_ref : ℕ → ℚ) (i : ℕ)
    (s : Outputs) :
    (imwarpScalarPoint I w h P X I_ref i s).isSome ↔
      (0 ≤ xi4 P X i ∧ xi4 P X i < w - 1 ∧ 0 ≤ yi4 P X i ∧ yi4 P X i < h - 1 →
        ∀ idx ∈ neighbourhood w (xi4 P X i) (yi4 P X i), (readPixel I idx).isSome) := by
  have e2 : ∀ u v : ℤ, (v + 1) * w + u = v * w + u + w := fun u v => by ring
  have e3 : ∀ u v : ℤ, (v + 1) * w + u + 1 = v * w + u + w + 1 := fun u v => by ring
  unfold imwarpScalarPoint xi4 yi4 perspective4 neighbourhood
  dsimp only
  simp only [mul_one_div, List.mem_cons, List.mem_singleton, List.not_mem_nil, or_false,
    forall_eq_or_imp, forall_eq, e2, e3]
  generalize castInt ((projective3 P X i).1 / (projective3 P X i).2.2 + 1 / 2) = xi
  generalize castInt ((projective3 P X i).2.1 / (projective3 P X i).2.2 + 1 / 2) = yi
  by_cases hc : 0 ≤ xi ∧ xi < w - 1 ∧ 0 ≤ yi ∧ yi < h - 1
  · have hs : store s.valid i (decide (xi ≥ 0) && decide (xi < w - 1) && decide (yi ≥ 0)
        && decide (yi < h - 1)) i = true := by
      simp [store, hc.1, hc.2.1, hc.2.2.1, hc.2.2.2]
    rw [if_pos hs]
    cases readPixel I (yi * w + xi) <;> cases readPixel I (yi * w + xi + 1) <;>
      cases readPixel I (yi * w + xi + w) <;> cases readPixel I (yi * w + xi + w + 1) <;>
      simp [Option.bind, hc]
  · have hs : ¬ store s.valid i (decide (xi ≥ 0) && decide (xi < w - 1) && decide (yi ≥ 0)
        && decide (yi < h - 1)) i = true := by
      simp only [store, if_true, Bool.and_eq_true, decide_eq_true_eq, ge_iff_le]
      tauto
    rw [if_neg hs]
    simp [hc]

/-- The neighbourhood of an anchor in `[0, w-2] × [0, h-2]` lies in `[0, w*h)`. -/
theorem neighbourhood_bounds {w h u v : ℤ} (hu : 0 ≤ u ∧ u ≤ w - 2) (hv : 0 ≤ v ∧ v ≤ h - 2) :
    ∀ idx ∈ neighbourhood w u v, 0 ≤ idx ∧ idx < w * h := by
  have hw0 : 0 ≤ w := by omega
  have h1 : 0 ≤ v * w := mul_nonneg hv.1 hw0
  have h2 : (v + 1) * w ≤ (h - 1) * w := mul_le_mul_of_nonneg_right (by omega) hw0
  have h3 : (v + 1) * w = v * w + w := by ring
  have h4 : (h - 1) * w = w * h - w := by ring
  intro idx hidx
  simp only [neighbourhood, List.mem_cons, List.mem_singleton, List.not_mem_nil,
    or_false] at hidx
  rcases hidx with rfl | rfl | rfl | rfl <;> constructor <;> omega

/-- The masked coordinates are anchors in `[0, w-2] × [0, h-2]`, whatever the rounded
lanes were. -/
theorem maskedBuf_bounds {w h : ℤ} (hw : 2 ≤ w) (hh : 2 ≤ h) (xi : M128i) :
    (0 ≤ (maskedBuf w h xi).e0 ∧ (maskedBuf w h xi).e0 ≤ w - 2) ∧
    (0 ≤ (maskedBuf w h xi).e1 ∧ (maskedBuf w h xi).e1 ≤ h - 2) ∧
    (0 ≤ (maskedBuf w h xi).e2 ∧ (maskedBuf w h xi).e2 ≤ w - 2) ∧
    (0 ≤ (maskedBuf w h xi).e3 ∧ (maskedBuf w h xi).e3 ≤ h - 2) :=
  ⟨maskedLane_bounds xi.e0 (w - 1) (w - 2) (by omega) (by omega),
   maskedLane_bounds xi.e1 (h - 1) (h - 2) (by omega) (by omega),
   maskedLane_bounds xi.e2 (w - 1) (w - 2) (by omega) (by omega),
   maskedLane_bounds xi.e3 (h - 1) (h - 2) (by omega) (by omega)⟩

/-- C13: for `w ≥ 2`, `h ≥ 2` and an image of `w*h` pixels, where the pixel lookup succeeds
exactly on the indices of `[0, w*h)`, every index `imwarp` reads lies in `[0, w*h)`: the
four indices `v*w + u`, `v*w + u + 1`, `(v+1)*w + u`, `(v+1)*w + u + 1` built from the
masked coordinates of both points of a block, whatever the rounded lanes were (valid or
not), and the four indices read by the scalar remainder for a valid point; so every block
of the vectorized loop, every step of the remainder loop and the whole call return without
a failed lookup. -/
theorem imwarp_reads_in_bounds (csr : Mxcsr) (I : List ℕ) (w h : ℤ) (P X I_ref : ℕ → ℚ)
    (residuals : ℕ → ℚ) (valid : ℕ → Bool) (N : ℕ) (I_warped : Option (ℕ → ℚ))
    (hI : (I.length : ℤ) = w * h) (hw : 2 ≤ w) (hh : 2 ≤ h) :
    (∀ off : ℤ, (readPixel I off).isSome ↔ 0 ≤ off ∧ off < w * h) ∧
    (∀ xi : M128i, ∀ idx ∈ neighbourhood w (maskedBuf w h xi).e0 (maskedBuf w h xi).e1
        ++ neighbourhood w (maskedBuf w h xi).e2 (maskedBuf w h xi).e3,
      0 ≤ idx ∧ idx < w * h) ∧
    (∀ xi yi : ℤ, 0 ≤ xi → xi < w - 1 → 0 ≤ yi → yi < h - 1 →
      ∀ idx ∈ neighbourhood w xi yi, 0 ≤ idx ∧ idx < w * h) ∧
    (∀ (c0 c1 c2 c3 : M128) (i off j : ℕ) (vld : ℕ → Bool),
      (imwarpPair csr I w h c0 c1 c2 c3 X i off j vld).isSome) ∧
    (∀ (i : ℕ) (s : Outputs), (imwarpScalarPoint I w h P X I_ref i s).isSome) ∧
    ∃ r, imwarp csr I w h P X I_ref residuals valid N I_warped = some r := by
  have ha : ∀ off : ℤ, (readPixel I off).isSome ↔ 0 ≤ off ∧ off < w * h := fun off => by
    rw [readPixel_isSome_iff, hI]
  have hb : ∀ xi : M128i, ∀ idx ∈ neighbourhood w (maskedBuf w h xi).e0 (maskedBuf w h xi).e1
      ++ neighbourhood w (maskedBuf w h xi).e2 (maskedBuf w h xi).e3,
      0 ≤ idx ∧ idx < w * h := fun xi idx hidx => by
    obtain ⟨b0, b1, b2, b3⟩ := maskedBuf_bounds hw hh xi
    rcases List.mem_append.mp hidx with hm | hm
    · exact neighbourhood_bounds b0 b1 idx hm
    · exact neighbourhood_bounds b2 b3 idx hm
  have hc : ∀ xi yi : ℤ, 0 ≤ xi → xi < w - 1 → 0 ≤ yi → yi < h - 1 →
      ∀ idx ∈ neighbourhood w xi yi, 0 ≤ idx ∧ idx < w * h :=
    fun xi yi hx0 hx1 hy0 hy1 =>
      neighbourhood_bounds ⟨hx0, by omega⟩ ⟨hy0, by omega⟩
  refine ⟨ha, hb, hc, fun c0 c1 c2 c3 i off j vld => ?_, fun i s => ?_, ?_⟩
  · rw [imwarpPair_isSome_iff, gather_isSome_iff, gather_isSome_iff]
    constructor
    · intro idx hidx
      exact (ha idx).mpr (hb _ idx (List.mem_append.mpr (Or.inl hidx)))
    · intro idx hidx
      exact (ha idx).mpr (hb _ idx (List.mem_append.mpr (Or.inr hidx)))
  · rw [imwarpScalarPoint_isSome_iff]
    rintro ⟨hx0, hx1, hy0, hy1⟩ idx hidx
    exact (ha idx).mpr (hc _ _ hx0 hx1 hy0 hy1 idx hidx)
  · obtain ⟨r, hr, -⟩ := imwarp_returns_count csr hI hw hh P X I_ref residuals valid N I_warped
    exact ⟨r, hr⟩

/-- C13 on the 4 by 4 image with six points, three of them out of range (among them lanes
of the full group): the call returns, and the masked coordinates of the out-of-range pair
`(-5, 9)`, `(7, 1)` are `(0, 0)` and `(0, 1)`. -/
theorem imwarp_reads_in_bounds_witness :
    (∃ r, imwarp csr0 img4 4 4 P_id
        (bufOf [-5, 9, 1, 1, 7, 1, 1, 1, 2, 2, 1, 1, 1, 1, 1, 1, 1, 2, 1, 1, 9, 9, 1, 1])
        (bufOf [95]) (bufOf []) (fun _ => false) 6 none = some r) ∧
    ((maskedBuf 4 4 ⟨-5, 9, 7, 1⟩).e0, (maskedBuf 4 4 ⟨-5, 9, 7, 1⟩).e1,
      (maskedBuf 4 4 ⟨-5, 9, 7, 1⟩).e2, (maskedBuf 4 4 ⟨-5, 9, 7, 1⟩).e3) = (0, 0, 0, 1) ∧
    neighbourhood 4 0 1 = [4, 5, 8, 9] :=
  ⟨(imwarp_reads_in_bounds csr0 img4 4 4 P_id
      (bufOf [-5, 9, 1, 1, 7, 1, 1, 1, 2, 2, 1, 1, 1, 1, 1, 1, 1, 2, 1, 1, 9, 9, 1, 1])
      (bufOf [95]) (bufOf []) (fun _ => false) 6 none (by decide) (by decide)
      (by decide)).2.2.2.2.2,
    by decide!, by decide⟩

/-! ## `imwarp`: the two projections -/

/-- Lanes of the vectorized projection: lane `r` is
`c3[r] + ((c0[r]*p[0] + c1[r]*p[1]) + c2[r]*p[2])`; lane 3 of `p` is not selected. -/
theorem projectPoint_lanes (c0 c1 c2 c3 : M128) (X : ℕ → ℚ) (off : ℕ) :
    projectPoint c0 c1 c2 c3 X off =
      ⟨c3.e0 + (c0.e0 * X off + c1.e0 * X (off + 1) + c2.e0 * X (off + 2)),
       c3.e1 + (c0.e1 * X off + c1.e1 * X (off + 1) + c2.e1 * X (off + 2)),
       c3.e2 + (c0.e2 * X off + c1.e2 * X (off + 1) + c2.e2 * X (off + 2)),
       c3.e3 + (c0.e3 * X off + c1.e3 * X (off + 1) + c2.e3 * X (off + 2))⟩ := rfl

/-- For a point with fourth component 1 the first three lanes of the vectorized projection
are the scalar product `PP * X_k`. -/
theorem projectPoint_eq_projective3 (P X : ℕ → ℚ) (k : ℕ) (ht : X (4 * k + 3) = 1) :
    ((projectPoint (_mm_load_ps P 0) (_mm_load_ps P 4) (_mm_load_ps P 8) (_mm_load_ps P 12)
        X (4 * k)).e0,
     (projectPoint (_mm_load_ps P 0) (_mm_load_ps P 4) (_mm_load_ps P 8) (_mm_load_ps P 12)
        X (4 * k)).e1,
     (projectPoint (_mm_load_ps P 0) (_mm_load_ps P 4) (_mm_load_ps P 8) (_mm_load_ps P 12)
        X (4 * k)).e2) = projective3 P X k := by
  rw [projectPoint_lanes]
  simp only [projective3, _mm_load_ps, ht, mul_one, Prod.mk.injEq]
  refine ⟨?_, ?_, ?_⟩ <;> ring

/-- The vectorized projection of a point does not depend on its fourth component. -/
theorem projectPoint_congr (c0 c1 c2 c3 : M128) {X X' : ℕ → ℚ}
    (hX : ∀ m, m % 4 ≠ 3 → X' m = X m) (n : ℕ) :
    projectPoint c0 c1 c2 c3 X' (4 * n) = projectPoint c0 c1 c2 c3 X (4 * n) := by
  rw [projectPoint_lanes, projectPoint_lanes, hX (4 * n) (by omega),
    hX (4 * n + 1) (by omega), hX (4 * n + 2) (by omega)]

/-- A block of the vectorized loop uses the point buffer through its two projections
only. -/
theorem imwarpPair_congr (csr : Mxcsr) (I : List ℕ) (w h : ℤ) (c0 c1 c2 c3 : M128)
    {X X' : ℕ → ℚ} (i off j : ℕ)
    (h0 : projectPoint c0 c1 c2 c3 X' (4 * i + off) = projectPoint c0 c1 c2 c3 X (4 * i + off))
    (h1 : projectPoint c0 c1 c2 c3 X' (4 * i + off + 4)
      = projectPoint c0 c1 c2 c3 X (4 * i + off + 4)) (valid : ℕ → Bool) :
    imwarpPair csr I w h c0 c1 c2 c3 X' i off j valid
      = imwarpPair csr I w h c0 c1 c2 c3 X i off j valid := by
  unfold imwarpPair
  rw [h0, h1]

/-- The body of the vectorized loop does not depend on the fourth components. -/
theorem imwarpGroup_congr (csr : Mxcsr) (I : List ℕ) (w h : ℤ) (P I_ref : ℕ → ℚ)
    {X X' : ℕ → ℚ} (hX : ∀ m, m % 4 ≠ 3 → X' m = X m) (i : ℕ) (s : Outputs) :
    imwarpGroup csr I w h P X' I_ref i s = imwarpGroup csr I w h P X I_ref i s := by
  have hp : ∀ q : ℕ, projectPoint (_mm_load_ps P 0) (_mm_load_ps P 4) (_mm_load_ps P 8)
      (_mm_load_ps P 12) X' (4 * i + 4 * q) = projectPoint (_mm_load_ps P 0) (_mm_load_ps P 4)
      (_mm_load_ps P 8) (_mm_load_ps P 12) X (4 * i + 4 * q) := fun q => by
    rw [← Nat.mul_add]; exact projectPoint_congr _ _ _ _ hX (i + q)
  have k0 := imwarpPair_congr csr I w h (_mm_load_ps P 0) (_mm_load_ps P 4) (_mm_load_ps P 8)
    (_mm_load_ps P 12) i 0 0 (hp 0) (hp 1)
  have k1 := imwarpPair_congr csr I w h (_mm_load_ps P 0) (_mm_load_ps P 4) (_mm_load_ps P 8)
    (_mm_load_ps P 12) i 8 2 (hp 2) (hp 3)
  unfold imwarpGroup
  simp only [k0, k1]

/-- The vectorized loop does not depend on the fourth components. -/
theorem imwarpGroups_congr (csr : Mxcsr) (I : List ℕ) (w h : ℤ) (P I_ref : ℕ → ℚ)
    {X X' : ℕ → ℚ} (hX : ∀ m, m % 4 ≠ 3 → X' m = X m) (g : ℕ) (s : Outputs) :
    imwarpGroups csr I w h P X' I_ref g s = imwarpGroups csr I w h P X I_ref g s := by
  induction g with
  | zero => rfl
  | succ g ih =>
    rw [imwarpGroups, imwarpGroups, ih]
    congr 1
    funext s1
    exact imwarpGroup_congr csr I w h P I_ref hX (4 * g) s1

/-- Lanes of the register `xf`: the packed divide of `[x, y]` by `z` for both points. -/
theorem pairXf_lanes (c0 c1 c2 c3 : M128) (X : ℕ → ℚ) (i off : ℕ) :
    pairXf c0 c1 c2 c3 X i off =
      ⟨(projectPoint c0 c1 c2 c3 X (4 * i + off)).e0
          / (projectPoint c0 c1 c2 c3 X (4 * i + off)).e2,
       (projectPoint c0 c1 c2 c3 X (4 * i + off)).e1
          / (projectPoint c0 c1 c2 c3 X (4 * i + off)).e2,
       (projectPoint c0 c1 c2 c3 X (4 * i + off + 4)).e0
          / (projectPoint c0 c1 c2 c3 X (4 * i + off + 4)).e2,
       (projectPoint c0 c1 c2 c3 X (4 * i + off + 4)).e1
          / (projectPoint c0 c1 c2 c3 X (4 * i + off + 4)).e2⟩ := rfl

/-- C14: for every matrix buffer `P` and every point `k` of the batch whose fourth component
is 1, the vector the vectorized loop computes, `c3 + c0*x + c1*y + c2*z` with
`cj = P[4j .. 4j+3]`, has in lanes 0..2 the scalar remainder's `PP * (x, y, z, t)`; hence
the lanes of the register `xf` that belong to the point, be it the first or the second
point of its block, are the `(xf, yf)` the scalar remainder computes (lines 569-571); and the
vectorized loop does not depend on the fourth components of the points. -/
theorem imwarp_projection_agreement (csr : Mxcsr) (I : List ℕ) (w h : ℤ) (P X I_ref : ℕ → ℚ)
    (k : ℕ) (ht : X (4 * k + 3) = 1) :
    ((projectPoint (_mm_load_ps P 0) (_mm_load_ps P 4) (_mm_load_ps P 8) (_mm_load_ps P 12)
        X (4 * k)).e0,
     (projectPoint (_mm_load_ps P 0) (_mm_load_ps P 4) (_mm_load_ps P 8) (_mm_load_ps P 12)
        X (4 * k)).e1,
     (projectPoint (_mm_load_ps P 0) (_mm_load_ps P 4) (_mm_load_ps P 8) (_mm_load_ps P 12)
        X (4 * k)).e2) = projective3 P X k ∧
    (∀ i off : ℕ, 4 * i + off = 4 * k →
      (pairXf (_mm_load_ps P 0) (_mm_load_ps P 4) (_mm_load_ps P 8) (_mm_load_ps P 12)
          X i off).e0 = (projective3 P X k).1 * (1 / (projective3 P X k).2.2) ∧
      (pairXf (_mm_load_ps P 0) (_mm_load_ps P 4) (_mm_load_ps P 8) (_mm_load_ps P 12)
          X i off).e1 = (projective3 P X k).2.1 * (1 / (projective3 P X k).2.2)) ∧
    (∀ i off : ℕ, 4 * i + off + 4 = 4 * k →
      (pairXf (_mm_load_ps P 0) (_mm_load_ps P 4) (_mm_load_ps P 8) (_mm_load_ps P 12)
          X i off).e2 = (projective3 P X k).1 * (1 / (projective3 P X k).2.2) ∧
      (pairXf (_mm_load_ps P 0) (_mm_load_ps P 4) (_mm_load_ps P 8) (_mm_load_ps P 12)
          X i off).e3 = (projective3 P X k).2.1 * (1 / (projective3 P X k).2.2)) ∧
    (∀ X' : ℕ → ℚ, (∀ m, m % 4 ≠ 3 → X' m = X m) → ∀ (g : ℕ) (s : Outputs),
      imwarpGroups csr I w h P X' I_ref g s = imwarpGroups csr I w h P X I_ref g s) := by
  have hA := projectPoint_eq_projective3 P X k ht
  have h0 := congrArg (fun t : ℚ × ℚ × ℚ => t.1) hA
  have h1 := congrArg (fun t : ℚ × ℚ × ℚ => t.2.1) hA
  have h2 := congrArg (fun t : ℚ × ℚ × ℚ => t.2.2) hA
  dsimp only at h0 h1 h2
  refine ⟨hA, fun i off hk => ?_, fun i off hk => ?_, fun X' hX g s => ?_⟩
  · rw [pairXf_lanes, hk]
    dsimp only
    rw [h0, h1, h2, mul_one_div, mul_one_div]
    exact ⟨rfl, rfl⟩
  · rw [pairXf_lanes, hk]
    dsimp only
    rw [h0, h1, h2, mul_one_div, mul_one_div]
    exact ⟨rfl, rfl⟩
  · exact imwarpGroups_congr csr I w h P I_ref hX g s

/-- C14 for the matrix with columns `(2,0,0,0)`, `(0,3,0,0)`, `(1,1,2,0)`, `(4,5,0,1)` and the
points `(1, 2, 3, 1)`, `(0, 0, 1, 1)`: both paths get the homogeneous vector `(9, 14, 6)`
and `(xf, yf) = (3/2, 7/3)` for the first point. -/
theorem imwarp_projection_agreement_witness :
    projective3 (bufOf [2, 0, 0, 0, 0, 3, 0, 0, 1, 1, 2, 0, 4, 5, 0, 1])
      (bufOf [1, 2, 3, 1, 0, 0, 1, 1]) 0 = (9, 14, 6) ∧
    (pairXf (_mm_load_ps (bufOf [2, 0, 0, 0, 0, 3, 0, 0, 1, 1, 2, 0, 4, 5, 0, 1]) 0)
      (_mm_load_ps (bufOf [2, 0, 0, 0, 0, 3, 0, 0, 1, 1, 2, 0, 4, 5, 0, 1]) 4)
      (_mm_load_ps (bufOf [2, 0, 0, 0, 0, 3, 0, 0, 1, 1, 2, 0, 4, 5, 0, 1]) 8)
      (_mm_load_ps (bufOf [2, 0, 0, 0, 0, 3, 0, 0, 1, 1, 2, 0, 4, 5, 0, 1]) 12)
      (bufOf [1, 2, 3, 1, 0, 0, 1, 1]) 0 0).e0 = 3 / 2 ∧
    (pairXf (_mm_load_ps (bufOf [2, 0, 0, 0, 0, 3, 0, 0, 1, 1, 2, 0, 4, 5, 0, 1]) 0)
      (_mm_load_ps (bufOf [2, 0, 0, 0, 0, 3, 0, 0, 1, 1, 2, 0, 4, 5, 0, 1]) 4)
      (_mm_load_ps (bufOf [2, 0, 0, 0, 0, 3, 0, 0, 1, 1, 2, 0, 4, 5, 0, 1]) 8)
      (_mm_load_ps (bufOf [2, 0, 0, 0, 0, 3, 0, 0, 1, 1, 2, 0, 4, 5, 0, 1]) 12)
      (bufOf [1, 2, 3, 1, 0, 0, 1, 1]) 0 0).e1 = 7 / 3 := by
  obtain ⟨-, hB, -, -⟩ := imwarp_projection_agreement csr0 img4 4 4
    (bufOf [2, 0, 0, 0, 0, 3, 0, 0, 1, 1, 2, 0, 4, 5, 0, 1]) (bufOf [1, 2, 3, 1, 0, 0, 1, 1])
    (bufOf []) 0 (by decide!)
  obtain ⟨hx, hy⟩ := hB 0 0 rfl
  refine ⟨by decide!, hx.trans (by decide!), hy.trans (by decide!)⟩

end bp
